import Mathlib

/-!
Verification of the installer's task-execution core and its collaborators,
as implemented in `tools/installer/src`. Every definition below is a shallow
embedding of the corresponding Rust item (same names, camel-cased); theorems
at the end settle the specification claims against these definitions.
-/

set_option maxHeartbeats 1000000

namespace Installer

/-! ## JSON model (`serde_json::Value`)

Objects are modelled as association lists with the key-unique map access
pattern of `serde_json::Map` (`get` / `get_mut` / `insert` / `remove`).
Numbers are modelled as integers; no claim involves non-integer numbers. -/

inductive Json where
  | null : Json
  | bool (b : Bool) : Json
  | num (n : Int) : Json
  | str (s : String) : Json
  | arr (items : List Json) : Json
  | obj (fields : List (String × Json)) : Json
deriving Repr

mutual

/-- Structural equality of JSON values (`Value: PartialEq`). -/
def jsonBeq : Json → Json → Bool
  | Json.null, Json.null => true
  | Json.bool a, Json.bool b => a == b
  | Json.num a, Json.num b => a == b
  | Json.str a, Json.str b => a == b
  | Json.arr a, Json.arr b => jsonListBeq a b
  | Json.obj a, Json.obj b => jsonObjBeq a b
  | _, _ => false

def jsonListBeq : List Json → List Json → Bool
  | [], [] => true
  | x :: xs, y :: ys => jsonBeq x y && jsonListBeq xs ys
  | _, _ => false

def jsonObjBeq : List (String × Json) → List (String × Json) → Bool
  | [], [] => true
  | (k1, v1) :: xs, (k2, v2) :: ys => k1 == k2 && jsonBeq v1 v2 && jsonObjBeq xs ys
  | _, _ => false

end

instance : BEq Json := ⟨jsonBeq⟩

/-- `map.get(key)` on a JSON object's fields. -/
def getKey : List (String × Json) → String → Option Json
  | [], _ => none
  | (k', v) :: rest, k => if k' = k then some v else getKey rest k

/-- Assignment through `map.get_mut(key)`: replaces the value at an existing
key in place, leaves the fields unchanged if the key is absent. -/
def setKeyVal : List (String × Json) → String → Json → List (String × Json)
  | [], _, _ => []
  | (k', v') :: rest, k, v =>
    if k' = k then (k', v) :: rest else (k', v') :: setKeyVal rest k v

/-- `map.remove(key)`: deletes the binding of `key` (all bindings, matching
map semantics where keys are unique). -/
def removeKey : List (String × Json) → String → List (String × Json)
  | [], _ => []
  | (k', v) :: rest, k =>
    if k' = k then removeKey rest k else (k', v) :: removeKey rest k

/-! ## `fs/installer/settings.rs` -/

/-- The inner loop of `merge_hooks`: for each entry of the source array,
push it onto the destination array unless an equal entry is already there
(`if !dest_array.contains(source_item) { dest_array.push(...) }`). -/
def hookAppendLoop (dest : List Json) : List Json → List Json
  | [] => dest
  | x :: rest =>
    hookAppendLoop (if dest.contains x then dest else dest ++ [x]) rest

/-- Per-event part of `merge_hooks`: walk the source `hooks` object;
an event already bound to an array in the destination gets source entries
appended (deduplicated), a missing event is inserted, anything else is
left alone. -/
def mergeHooksFields (dest : List (String × Json)) :
    List (String × Json) → List (String × Json)
  | [] => dest
  | (hookType, sv) :: rest =>
    let dest' :=
      match getKey dest hookType with
      | some (Json.arr destArray) =>
        match sv with
        | Json.arr sourceArray =>
          setKeyVal dest hookType (Json.arr (hookAppendLoop destArray sourceArray))
        | _ => dest
      | none => dest ++ [(hookType, sv)]
      | some _ => dest
    mergeHooksFields dest' rest

/-- `merge_hooks`: only does something when both sides are objects. -/
def mergeHooks (dest source : Json) : Json :=
  match dest, source with
  | Json.obj destHooks, Json.obj sourceHooks => Json.obj (mergeHooksFields destHooks sourceHooks)
  | dest, _ => dest

mutual

/-- `merge_json_values`: deep merge of source into dest; objects merge
key-wise with the `hooks` key special-cased, anything else is replaced
by the source value. -/
def mergeJsonValues : Json → Json → Json
  | Json.obj destMap, Json.obj sourceMap => Json.obj (mergeFields destMap sourceMap)
  | _, source => source

/-- The `for (key, source_value) in source_map` loop of `merge_json_values`. -/
def mergeFields (destMap : List (String × Json)) :
    List (String × Json) → List (String × Json)
  | [] => destMap
  | (k, sv) :: rest =>
    let destMap' :=
      match getKey destMap k with
      | some dv =>
        if k = "hooks" then setKeyVal destMap k (mergeHooks dv sv)
        else setKeyVal destMap k (mergeJsonValues dv sv)
      | none => destMap ++ [(k, sv)]
    mergeFields destMap' rest

end

/-- The managed top-level keys deleted by `remove_managed_settings_sections`. -/
def managedKeys : List String := ["hooks", "outputStyle", "statusLine"]

/-- `remove_managed_settings_sections`: `none` models an absent
`settings.json` (the function returns without writing); on a present file
the three managed keys are removed wholesale when the document is an
object, and the document is rewritten unchanged otherwise. -/
def removeManagedSettingsSections : Option Json → Option Json
  | none => none
  | some s =>
    some (match s with
      | Json.obj m =>
        Json.obj (removeKey (removeKey (removeKey m "hooks") "outputStyle") "statusLine")
      | v => v)

/-! ## `fs/scanner/validation.rs` and `scan_mcp_servers` -/

inductive McpType where
  | command
  | http
deriving DecidableEq, Repr

structure McpServerDef where
  name : String
  description : String
  type? : Option McpType
  command : Option String
  url : Option String
  category : String
  env : List String
deriving DecidableEq, Repr

inductive McpStatus where
  | installed
  | notInstalled
deriving DecidableEq, Repr

structure McpServer where
  def_ : McpServerDef
  selected : Bool
  status : McpStatus
deriving DecidableEq, Repr

/-- `McpServer::new`. -/
def McpServer.new (d : McpServerDef) (status : McpStatus) : McpServer :=
  { def_ := d, selected := false, status := status }

/-- Shell metacharacters disallowed in catalog commands. -/
def shellMetaChars : List Char :=
  ['&', '|', '>', '<', ';', Char.ofNat 96, '$', '(', ')']

/-- `is_safe_identifier`. -/
def isSafeIdentifier (s : String) : Bool :=
  !s.isEmpty
    && s.utf8ByteSize ≤ 100
    && !s.startsWith "-"
    && s.toList.all (fun c => c.isAlphanum || c = '_' || c = '-')

/-- `is_https_url`. -/
def isHttpsUrl (s : String) : Bool :=
  s.startsWith "https://" && s.utf8ByteSize > 8

/-- `is_safe_command`. -/
def isSafeCommand (s : String) : Bool :=
  !s.isEmpty && !(s.toList.any (fun c => shellMetaChars.contains c))

/-- `validate_mcp_server`: `some message` on an invalid definition,
`none` when valid. -/
def validateMcpServer (server : McpServerDef) : Option String :=
  if !isSafeIdentifier server.name then
    some ("MCP server " ++ server.name ++
      ": name must be alphanumeric/underscore/hyphen, 1-100 chars, not starting with -")
  else
    match server.url with
    | some url =>
      if !isHttpsUrl url then
        some ("MCP server " ++ server.name ++ ": url must use https:// scheme, got " ++ url)
      else
        match server.command with
        | some cmd =>
          if !isSafeCommand cmd then
            some ("MCP server " ++ server.name ++ ": command contains disallowed shell metacharacters")
          else none
        | none => none
    | none =>
      match server.command with
      | some cmd =>
        if !isSafeCommand cmd then
          some ("MCP server " ++ server.name ++ ": command contains disallowed shell metacharacters")
        else none
      | none => none

/-- `scan_mcp_servers`, abstracted over the parsed catalog and the set of
already-installed server names (the two external inputs): invalid entries
are dropped by the `filter_map`, valid ones become `McpServer` values. -/
def scanMcpServers (catalog : List McpServerDef) (installed : List String) :
    List McpServer :=
  catalog.filterMap (fun d =>
    if (validateMcpServer d).isSome then none
    else
      some (McpServer.new d
        (if installed.contains d.name then McpStatus.installed else McpStatus.notInstalled)))

/-! ## `fs/installer/process.rs`: `spawn_cancelable_process`

The polling loop is embedded over a trace of per-iteration observations.
Each `Tick` records what the iteration would see, in program order: whether
`start_time.elapsed() >= timeout_duration` at the top of the loop, what
`child.wait_timeout(POLL_INTERVAL)` returns, and whether `cancel_rx.try_recv()`
would yield a pending signal. -/

/-- Result of the non-blocking `child.wait_timeout` poll. -/
inductive WaitRes where
  | exited (success : Bool)
  | stillRunning
  | waitErr
deriving DecidableEq, Repr

structure Tick where
  timeoutExpired : Bool
  wait : WaitRes
  cancelPending : Bool
deriving DecidableEq, Repr

/-- Typed outcome of one runner invocation (§3 `ProcessOutcome`; in the code
these are the distinct `Ok`/`bail!` exits of `spawn_cancelable_process`).
`ranOut` marks trace exhaustion: a finite trace that never reaches an exit
condition (the real loop would simply keep polling). -/
inductive ProcOutcome where
  | success
  | failure
  | timedOut
  | cancelled
  | sysError
  | ranOut
deriving DecidableEq, Repr

/-- The polling loop of `spawn_cancelable_process`: on each iteration the
timeout check runs first, then the process-completion check, and only for a
still-running child the cancellation channel is read. -/
def spawnCancelableProcess : List Tick → ProcOutcome
  | [] => ProcOutcome.ranOut
  | t :: rest =>
    if t.timeoutExpired then ProcOutcome.timedOut
    else
      match t.wait with
      | WaitRes.exited true => ProcOutcome.success
      | WaitRes.exited false => ProcOutcome.failure
      | WaitRes.waitErr => ProcOutcome.sysError
      | WaitRes.stillRunning =>
        if t.cancelPending then ProcOutcome.cancelled
        else spawnCancelableProcess rest

/-! ## `main.rs`: `ProcessingChannels` and the dispatch loop's channel discipline

Channel pairs are modelled by generation numbers: a sender delivers to a
receiver exactly when their generation numbers coincide. `nextId` is the
next fresh generation. The fields mirror `ProcessingChannels`:
`cancelTxId`/`cancelRxId` are the current pair, `currentCancelTxId` is the
clone handed to the input handler (`current_cancel_tx`). -/

structure Channels where
  nextId : Nat
  cancelTxId : Nat
  cancelRxId : Nat
  currentCancelTxId : Nat
deriving DecidableEq, Repr

/-- `ProcessingChannels::new()`: one pair (generation 0) with
`current_cancel_tx` cloned from it. -/
def Channels.new : Channels :=
  { nextId := 1, cancelTxId := 0, cancelRxId := 0, currentCancelTxId := 0 }

/-- `take_cancel_rx`: replace the pair with a fresh one and hand out the old
receiver. -/
def Channels.takeCancelRx (c : Channels) : Channels × Nat :=
  ({ c with cancelTxId := c.nextId, cancelRxId := c.nextId, nextId := c.nextId + 1 },
    c.cancelRxId)

/-- `reset_cancel_channel`: discard the pair and create a fresh one. -/
def Channels.resetCancelChannel (c : Channels) : Channels :=
  { c with cancelTxId := c.nextId, cancelRxId := c.nextId, nextId := c.nextId + 1 }

/-- The channel moves of `dispatch_next_process`:
`current_cancel_tx = cancel_tx.clone()` followed by `take_cancel_rx()`,
whose result is the receiver moved into the spawned thread. -/
def dispatchCancelSetup (c : Channels) : Channels × Nat :=
  Channels.takeCancelRx { c with currentCancelTxId := c.cancelTxId }

/-- The channel-relevant events of the UI loop: dispatching an operation,
observing its completion (`handle_process_completion`, which calls
`reset_cancel_channel`), and the user's Esc sending on `current_cancel_tx`. -/
inductive ChanEvent where
  | dispatch
  | complete
  | cancelSend
deriving DecidableEq, Repr

/-- Run the UI loop's channel discipline over an event list, recording the
exposed generation numbers: `(true, rx)` when a dispatch hands receiver
generation `rx` to an execution thread, `(false, tx)` when a cancellation
is sent with sender generation `tx`. `active` is `processing_active`:
dispatch only fires when idle, completion and cancel-send only when an
operation is in flight — exactly the guards of `handle_installing_view`
and `handle_installing_input`. -/
def runChannels : Channels → Bool → List ChanEvent → List (Bool × Nat)
  | _, _, [] => []
  | c, active, e :: es =>
    match e with
    | ChanEvent.dispatch =>
      if active then runChannels c active es
      else
        let p := dispatchCancelSetup c
        (true, p.2) :: runChannels p.1 true es
    | ChanEvent.complete =>
      if active then runChannels (Channels.resetCancelChannel c) false es
      else runChannels c active es
    | ChanEvent.cancelSend =>
      if active then (false, c.currentCancelTxId) :: runChannels c active es
      else runChannels c active es

/-! ## `component.rs` -/

inductive ComponentType where
  | agents
  | commands
  | contexts
  | rules
  | skills
  | hooks
  | outputStyles
  | statusline
  | configFile
deriving DecidableEq, Repr

inductive InstallStatus where
  | new
  | modified
  | unchanged
  | managed
deriving DecidableEq, Repr

/-- `Component`, restricted to the fields the verified operations read
(paths and the hook descriptor are never consulted by any claim). -/
structure Component where
  componentType : ComponentType
  name : String
  selected : Bool
  status : InstallStatus
deriving DecidableEq, Repr

/-! ## `tree.rs` -/

/-- `TreeNode`: an arena node; children are indices into the arena. -/
inductive TreeNode where
  | folder (name : String) (path : String) (expanded : Bool)
      (children : List Nat) (depth : Nat) (parentIdx : Option Nat)
  | file (componentIdx : Nat) (depth : Nat) (parentIdx : Option Nat)
deriving DecidableEq, Repr

/-- The child-index list of a node (empty for files). -/
def TreeNode.childIndices : TreeNode → List Nat
  | TreeNode.folder _ _ _ children _ _ => children
  | TreeNode.file _ _ _ => []

def TreeNode.isFolder : TreeNode → Bool
  | TreeNode.folder _ _ _ _ _ _ => true
  | TreeNode.file _ _ _ => false

def TreeNode.isExpanded : TreeNode → Bool
  | TreeNode.folder _ _ expanded _ _ _ => expanded
  | TreeNode.file _ _ _ => false

structure TreeView where
  nodes : List TreeNode
  visibleIndices : List Nat
  cursor : Nat
  rootChildren : List Nat
deriving DecidableEq, Repr

/-- `add_visible_recursive`: push the node, then recurse into children when
it is an expanded folder. The recursion over arena indices is bounded by
fuel; `nodes.length` fuel is always sufficient on well-formed arenas, whose
child indices strictly increase (see `WfArena`). -/
def addVisibleRecursive (nodes : List TreeNode) : Nat → Nat → List Nat
  | 0, _ => []
  | fuel + 1, i =>
    match nodes.get? i with
    | some (TreeNode.folder _ _ expanded children _ _) =>
      i :: (if expanded then children.flatMap (fun c => addVisibleRecursive nodes fuel c) else [])
    | some (TreeNode.file _ _ _) => [i]
    | none => [i]

/-- Structural invariants of every arena the builder
(`build_from_components` / `insert_path`) produces: a node is pushed before
any of its children, so child indices strictly exceed the parent's and are
in range. -/
def WfArena (nodes : List TreeNode) : Prop :=
  ∀ i node, nodes.get? i = some node →
    ∀ c ∈ node.childIndices, i < c ∧ c < nodes.length

/-- The visible list recomputed by `rebuild_visible`, before cursor
clamping. -/
def rebuildVisibleList (t : TreeView) : List Nat :=
  t.rootChildren.flatMap (fun r => addVisibleRecursive t.nodes t.nodes.length r)

/-- `rebuild_visible`: recompute `visible_indices` and clamp the cursor. -/
def TreeView.rebuildVisible (t : TreeView) : TreeView :=
  let vis := rebuildVisibleList t
  { t with
    visibleIndices := vis,
    cursor := if !vis.isEmpty && t.cursor ≥ vis.length then vis.length - 1 else t.cursor }

/-- `current_node_idx`. -/
def TreeView.currentNodeIdx (t : TreeView) : Option Nat :=
  t.visibleIndices.get? t.cursor

/-- `toggle_expand`: flip the `expanded` flag of the folder under the
cursor and rebuild the visible list. -/
def TreeView.toggleExpand (t : TreeView) : TreeView :=
  match t.currentNodeIdx with
  | some nodeIdx =>
    match t.nodes.get? nodeIdx with
    | some (TreeNode.folder name path expanded children depth parentIdx) =>
      TreeView.rebuildVisible
        { t with nodes := (t.nodes.set nodeIdx
            (TreeNode.folder name path (!expanded) children depth parentIdx)) }
    | _ => t
  | none => t

/-- `collect_component_indices` (fuel-bounded as for the visible walk). -/
def collectComponentIndices (nodes : List TreeNode) : Nat → Nat → List Nat
  | 0, _ => []
  | fuel + 1, i =>
    match nodes.get? i with
    | some (TreeNode.file componentIdx _ _) => [componentIdx]
    | some (TreeNode.folder _ _ _ children _ _) =>
      children.flatMap (fun c => collectComponentIndices nodes fuel c)
    | none => []

/-- `get_folder_component_indices`. -/
def TreeView.getFolderComponentIndices (t : TreeView) (folderIdx : Nat) : List Nat :=
  collectComponentIndices t.nodes t.nodes.length folderIdx

/-- Checked well-formedness of an arena, the shape `insert_path` produces:
every node is pushed to the arena before being added as a child, so child
indices strictly exceed the parent's index and are in range. -/
def wfArena (nodes : List TreeNode) : Bool :=
  nodes.enum.all (fun p =>
    p.2.childIndices.all (fun c => decide (p.1 < c) && decide (c < nodes.length)))

/-- Reachability along child edges of the arena: `Desc ns i x` holds when
node `x` lies in the subtree rooted at node `i`. -/
inductive Desc (ns : List TreeNode) : Nat → Nat → Prop where
  | refl (i : Nat) : Desc ns i i
  | child (i c x : Nat) (node : TreeNode) (hn : ns.get? i = some node)
      (hc : c ∈ node.childIndices) (h : Desc ns c x) : Desc ns i x

/-! ## `plugin.rs` -/

structure PluginDef where
  name : String
  marketplace : String
  source : String
  comment : Option String
deriving DecidableEq, Repr

inductive PluginStatus where
  | installed
  | notInstalled
deriving DecidableEq, Repr

structure Plugin where
  def_ : PluginDef
  selected : Bool
  status : PluginStatus
deriving DecidableEq, Repr

/-! ## `app/types.rs` -/

inductive Tab where
  | agents
  | commands
  | contexts
  | rules
  | skills
  | hooks
  | outputStyles
  | statusline
  | config
  | mcpServers
  | plugins
deriving DecidableEq, Repr

/-- `Tab::to_component_type`. -/
def Tab.toComponentType : Tab → Option ComponentType
  | Tab.agents => some ComponentType.agents
  | Tab.commands => some ComponentType.commands
  | Tab.contexts => some ComponentType.contexts
  | Tab.rules => some ComponentType.rules
  | Tab.skills => some ComponentType.skills
  | Tab.hooks => some ComponentType.hooks
  | Tab.outputStyles => some ComponentType.outputStyles
  | Tab.statusline => some ComponentType.statusline
  | Tab.config => some ComponentType.configFile
  | Tab.mcpServers => none
  | Tab.plugins => none

inductive View where
  | cliSelection
  | loading
  | list
  | diff
  | envInput
  | projectPath
  | installing
deriving DecidableEq, Repr

/-! ## `app/mod.rs`: the application state

Restricted to the fields read or written by the verified operations.
The per-tab `tree_views` map is not carried here: the tree operations are
verified directly on `TreeView` (the `selection.rs` code below receives the
active tab's tree as an argument instead of looking it up in the map). -/

structure App where
  tab : Tab
  currentView : View
  components : List Component
  mcpServers : List McpServer
  plugins : List Plugin
  statusMessage : Option String
  processingProgress : Option Nat
  processingTotal : Option Nat
  processingLog : List String
  processingQueue : List Nat
  isRemoving : Bool
  animationFrame : Nat
  needsRefresh : Bool
  refreshing : Bool
  processingComplete : Bool
  cancelling : Bool
  envInputServerIdx : Option Nat
  envInputVars : List String
  envInputCurrent : Nat
  envInputBuffer : String
  envInputValues : List (String × String)
deriving DecidableEq, Repr

/-! ## `app/selection.rs` -/

/-- The body of the `if let Some(c) = self.components.get_mut(idx)` update:
set the `selected` flag at `idx`, leaving the list unchanged when the index
is out of range. -/
def setSelectedAt (comps : List Component) (idx : Nat) (v : Bool) : List Component :=
  match comps.get? idx with
  | some c => comps.set idx { c with selected := v }
  | none => comps

/-- `App::toggle_folder_selection`, with the active tab's tree passed
explicitly: collect every component index under the folder at the cursor;
if all are selected, deselect the whole subtree, otherwise select it. -/
def toggleFolderSelection (tree : TreeView) (components : List Component) :
    List Component :=
  match tree.currentNodeIdx with
  | none => components
  | some nodeIdx =>
    let indices := tree.getFolderComponentIndices nodeIdx
    if indices.isEmpty then components
    else
      let allSelected := indices.all
        (fun idx => (((components.get? idx).map (fun c => c.selected)).getD false))
      let newState := !allSelected
      indices.foldl (fun comps idx => setSelectedAt comps idx newState) components

/-! ## `app/processing.rs` -/

/-- `iter().enumerate().filter(..).map(|(i, _)| i)`. -/
def selectedIndices {α : Type} (xs : List α) (p : α → Bool) : List Nat :=
  ((xs.enum).filter (fun ix => p ix.2)).map (fun ix => ix.1)

/-- `App::start_env_input`. -/
def App.startEnvInput (app : App) (serverIdx : Nat) (missingVars : List String) : App :=
  { app with
    envInputServerIdx := some serverIdx,
    envInputVars := missingVars,
    envInputCurrent := 0,
    envInputBuffer := "",
    envInputValues := [],
    currentView := View.envInput }

/-- The env-var scan of `install_selected`: the first queued MCP server
whose required variables are not all present in the environment, with the
missing names. `envPresent` stands for the process environment
(`std::env::var(e).is_ok()`). -/
def firstMissingEnv (servers : List McpServer) (envPresent : List String) :
    List Nat → Option (Nat × List String)
  | [] => none
  | idx :: rest =>
    match servers.get? idx with
    | some server =>
      let missing := server.def_.env.filter (fun e => !envPresent.contains e)
      if !missing.isEmpty then some (idx, missing)
      else firstMissingEnv servers envPresent rest
    | none => firstMissingEnv servers envPresent rest

/-- `App::install_selected`. -/
def App.installSelected (app : App) (envPresent : List String) : App :=
  let indices : List Nat :=
    if app.tab = Tab.mcpServers then
      selectedIndices app.mcpServers (fun m => m.selected)
    else if app.tab = Tab.plugins then
      selectedIndices app.plugins (fun p => p.selected)
    else
      match app.tab.toComponentType with
      | some compType =>
        selectedIndices app.components (fun c => c.selected && c.componentType = compType)
      | none => []
  if indices.isEmpty then
    { app with statusMessage := some "No items selected" }
  else
    match (if app.tab = Tab.mcpServers then firstMissingEnv app.mcpServers envPresent indices
           else none) with
    | some p => App.startEnvInput { app with processingQueue := indices } p.1 p.2
    | none =>
      { app with
        processingQueue := indices,
        processingTotal := some indices.length,
        processingProgress := some 0,
        processingLog := ["Starting installation of " ++ toString indices.length ++ " items..."],
        isRemoving := false,
        cancelling := false,
        currentView := View.installing }

/-- `App::remove_selected`. -/
def App.removeSelected (app : App) : App :=
  let indices : List Nat :=
    if app.tab = Tab.mcpServers then
      selectedIndices app.mcpServers (fun m => m.selected)
    else if app.tab = Tab.plugins then
      selectedIndices app.plugins (fun p => p.selected)
    else
      match app.tab.toComponentType with
      | some compType =>
        selectedIndices app.components (fun c => c.selected && c.componentType = compType)
      | none => []
  if indices.isEmpty then
    { app with statusMessage := some "No items selected" }
  else
    { app with
      processingQueue := indices,
      processingTotal := some indices.length,
      processingProgress := some 0,
      processingLog := ["Starting removal of " ++ toString indices.length ++ " items..."],
      isRemoving := true,
      cancelling := false,
      currentView := View.installing }

/-- `App::start_finish_processing`. -/
def App.startFinishProcessing (app : App) : App :=
  let action := if app.isRemoving then "Removal" else "Installation"
  { app with
    processingLog := app.processingLog ++
      ["[OK] " ++ action ++ " complete!", "", "Refreshing status..."],
    needsRefresh := true }

/-- `App::apply_refresh_result` (the tree-view rebuild touches only the
un-modelled `tree_views` map). -/
def App.applyRefreshResult (app : App) (components : List Component)
    (mcpServers : List McpServer) (plugins : List Plugin) : App :=
  let verb := if app.isRemoving then "Removed" else "Installed"
  { app with
    components := components,
    mcpServers := mcpServers,
    plugins := plugins,
    statusMessage := some (verb ++ " " ++ toString (app.processingTotal.getD 0) ++ " items"),
    processingLog := app.processingLog ++ ["[OK] Status refresh complete!"],
    needsRefresh := false,
    refreshing := false,
    processingComplete := true }

/-- `App::close_processing`. -/
def App.closeProcessing (app : App) : App :=
  { app with
    currentView := View.list,
    processingQueue := [],
    processingProgress := none,
    processingTotal := none,
    processingLog := [],
    isRemoving := false,
    needsRefresh := false,
    refreshing := false,
    processingComplete := false }

/-- `App::tick`. -/
def App.tick (app : App) : App :=
  { app with animationFrame := (app.animationFrame + 1) % 10 }

/-! ## `main.rs`: the Installing-view loop -/

/-- Substring check (`str::contains`) on the character lists. -/
def charsStartWith : List Char → List Char → Bool
  | [], _ => true
  | _ :: _, [] => false
  | a :: as, b :: bs => a == b && charsStartWith as bs

def charsContain (pat : List Char) : List Char → Bool
  | [] => charsStartWith pat []
  | l@(_ :: rest) => charsStartWith pat l || charsContain pat rest

def strContains (s pat : String) : Bool :=
  charsContain pat.toList s.toList

/-- The keys `handle_installing_input` distinguishes. -/
inductive Key where
  | esc
  | charQ
  | enter
  | other
deriving DecidableEq, Repr

/-- `handle_installing_input`: the returned flag records whether a
cancellation signal was sent on `current_cancel_tx` (see `runChannels` for
the channel-generation bookkeeping). -/
def handleInstallingInput (app : App) (key : Key) (processingActive : Bool) :
    App × Bool :=
  match key with
  | Key.esc =>
    if processingActive && !app.cancelling then
      ({ app with
          processingLog := app.processingLog ++ ["[WARN] Cancelling current operation..."],
          cancelling := true }, true)
    else if app.processingComplete then (app.closeProcessing, false)
    else (app, false)
  | Key.charQ =>
    if app.processingComplete then (app.closeProcessing, false) else (app, false)
  | Key.enter =>
    if app.processingComplete then (app.closeProcessing, false) else (app, false)
  | Key.other => (app, false)

/-- Outcome of `process_rx.try_recv()`: a delivered thread result
(`Ok(Result<String>)`), an empty channel, or a disconnect (the execution
thread died without sending). -/
inductive ProcessRecv where
  | ok (result : Except String String)
  | empty
  | disconnected
deriving Repr

/-- `handle_process_completion`; returns the state and the new
`processing_active` flag. The `reset_cancel_channel()` call it performs is
the channel-generation step modelled by `Channels.resetCancelChannel`. -/
def handleProcessCompletion (app : App) (recv : ProcessRecv) : App × Bool :=
  match recv with
  | ProcessRecv.ok result =>
    let app1 := { app with cancelling := false }
    let app2 :=
      match result with
      | Except.ok msg => { app1 with processingLog := app1.processingLog ++ [msg] }
      | Except.error e =>
        if strContains e "Cancelled by user" then
          let a := { app1 with processingLog := app1.processingLog ++ ["[WARN] Cancelled by user"] }
          let a :=
            if !a.isRemoving then
              { a with processingLog := a.processingLog ++ ["[INFO] Cleaning up cancelled installation..."] }
            else a
          { a with processingQueue := [] }
        else if strContains e "timed out" then
          let a := { app1 with processingLog := app1.processingLog ++ ["[ERR] " ++ e] }
          if !a.isRemoving then
            { a with processingLog := a.processingLog ++ ["[INFO] Cleaning up timed out installation..."] }
          else a
        else
          { app1 with processingLog := app1.processingLog ++ ["[ERR] " ++ e] }
    let app3 := { app2 with processingProgress := some (app2.processingProgress.getD 0 + 1) }
    let app4 := if app3.processingQueue.isEmpty then app3.startFinishProcessing else app3
    (app4, false)
  | ProcessRecv.empty => (app, true)
  | ProcessRecv.disconnected =>
    let app1 := { app with processingLog := app.processingLog ++ ["[ERR] Process thread crashed"] }
    let app2 := if app1.processingQueue.isEmpty then app1.startFinishProcessing else app1
    (app2, false)

/-- `get_item_name`. -/
def App.getItemName (app : App) (idx : Nat) : String :=
  if app.tab = Tab.mcpServers then
    (((app.mcpServers.get? idx).map (fun s => s.def_.name)).getD "")
  else if app.tab = Tab.plugins then
    (((app.plugins.get? idx).map (fun p => p.def_.name)).getD "")
  else
    (((app.components.get? idx).map (fun c => c.name)).getD "")

/-- `dispatch_next_process`: pop the queue head, log the start line, and
hand the item to a fresh execution thread (the thread spawn and the
cancel-channel moves are modelled by `dispatchCancelSetup`); the caller
guarantees a non-empty queue. -/
def dispatchNextProcess (app : App) : App :=
  let idx := app.processingQueue.headD 0
  let itemName := app.getItemName idx
  let action := if app.isRemoving then "Removing" else "Installing"
  { app with
    processingQueue := app.processingQueue.tail,
    processingLog := app.processingLog ++ [action ++ " " ++ itemName ++ "..."] }

/-- Outcome of `refresh_rx.try_recv()`. -/
inductive RefreshRecv where
  | okResult (components : List Component) (mcpServers : List McpServer) (plugins : List Plugin)
  | okErr (msg : String)
  | empty
  | disconnected
deriving DecidableEq, Repr

/-- `check_refresh_completion`. -/
def checkRefreshCompletion (app : App) (recv : RefreshRecv) : App :=
  match recv with
  | RefreshRecv.okResult c m p => app.applyRefreshResult c m p
  | RefreshRecv.okErr e =>
    { app with
      processingLog := app.processingLog ++ ["[ERROR] Refresh failed: " ++ e],
      needsRefresh := false, refreshing := false, processingComplete := true }
  | RefreshRecv.empty => app
  | RefreshRecv.disconnected =>
    { app with
      processingLog := app.processingLog ++ ["[ERROR] Refresh thread crashed"],
      needsRefresh := false, refreshing := false, processingComplete := true }

/-- What one tick of the Installing view may observe from the outside
world: an optional key press and the two polled channels. -/
structure StepInput where
  key : Option Key
  processRecv : ProcessRecv
  refreshRecv : RefreshRecv
deriving Repr

structure StepResult where
  app : App
  processingActive : Bool
  sentCancel : Bool
  dispatched : Bool
  startedRefresh : Bool
deriving Repr

/-- One tick of `handle_installing_view`: input handling, animation tick,
completion polling when an operation is in flight, then exactly one of
dispatch / refresh start (`start_refresh_thread`, which flips
`refreshing`) / refresh polling. -/
def handleInstallingView (app : App) (processingActive : Bool) (input : StepInput) :
    StepResult :=
  let hi :=
    match input.key with
    | some k => handleInstallingInput app k processingActive
    | none => (app, false)
  let app2 := hi.1.tick
  let pc :=
    if processingActive then handleProcessCompletion app2 input.processRecv
    else (app2, processingActive)
  let app3 := pc.1
  let active3 := pc.2
  if !active3 && !app3.processingQueue.isEmpty then
    { app := dispatchNextProcess app3, processingActive := true, sentCancel := hi.2,
      dispatched := true, startedRefresh := false }
  else if !active3 && app3.processingQueue.isEmpty && app3.needsRefresh && !app3.refreshing then
    { app := { app3 with refreshing := true }, processingActive := active3, sentCancel := hi.2,
      dispatched := false, startedRefresh := true }
  else if app3.refreshing then
    { app := checkRefreshCompletion app3 input.refreshRecv, processingActive := active3,
      sentCancel := hi.2, dispatched := false, startedRefresh := false }
  else
    { app := app3, processingActive := active3, sentCancel := hi.2,
      dispatched := false, startedRefresh := false }

/-! ## Helper lemmas -/

theorem getKey_removeKey_self (m : List (String × Json)) (k : String) :
    getKey (removeKey m k) k = none := by
  induction m with
  | nil => simp [removeKey, getKey]
  | cons kv rest ih =>
    obtain ⟨k', v⟩ := kv
    by_cases h : k' = k <;> simp [removeKey, getKey, h, ih]

theorem getKey_removeKey_ne (m : List (String × Json)) (k k' : String) (h : k' ≠ k) :
    getKey (removeKey m k) k' = getKey m k' := by
  induction m with
  | nil => simp [removeKey]
  | cons kv rest ih =>
    obtain ⟨k0, v⟩ := kv
    by_cases h0 : k0 = k
    · have hne : k0 ≠ k' := fun hc => h (hc ▸ h0)
      simp only [removeKey, if_pos h0, getKey, if_neg hne]
      exact ih
    · simp only [removeKey, if_neg h0, getKey]
      by_cases h1 : k0 = k' <;> simp [h1, ih]

theorem selectedIndices_eq_nil {α : Type} (xs : List α) (p : α → Bool)
    (h : ∀ x ∈ xs, p x = false) : selectedIndices xs p = [] := by
  unfold selectedIndices
  suffices h' : ∀ n, (List.enumFrom n xs).filter (fun ix => p ix.2) = [] by
    simp [List.enum, h' 0]
  intro n
  induction xs generalizing n with
  | nil => simp [List.enumFrom]
  | cons x rest ih =>
    have hx := h x (by simp)
    simp only [List.enumFrom, List.filter, hx]
    exact ih (fun y hy => h y (by simp [hy])) (n + 1)

mutual

theorem jsonBeq_refl : ∀ j : Json, jsonBeq j j = true
  | Json.null => by simp [jsonBeq]
  | Json.bool _ => by simp [jsonBeq]
  | Json.num _ => by simp [jsonBeq]
  | Json.str _ => by simp [jsonBeq]
  | Json.arr xs => by simp [jsonBeq, jsonListBeq_refl xs]
  | Json.obj fs => by simp [jsonBeq, jsonObjBeq_refl fs]

theorem jsonListBeq_refl : ∀ xs : List Json, jsonListBeq xs xs = true
  | [] => by simp [jsonListBeq]
  | x :: xs => by simp [jsonListBeq, jsonBeq_refl x, jsonListBeq_refl xs]

theorem jsonObjBeq_refl : ∀ fs : List (String × Json), jsonObjBeq fs fs = true
  | [] => by simp [jsonObjBeq]
  | (_, v) :: fs => by simp [jsonObjBeq, jsonBeq_refl v, jsonObjBeq_refl fs]

end

theorem json_contains_append (l1 l2 : List Json) (x : Json) :
    (l1 ++ l2).contains x = (l1.contains x || l2.contains x) := by
  induction l1 with
  | nil => simp
  | cons a l1 ih => simp [List.contains_cons, ih, Bool.or_assoc]

theorem json_contains_self (l : List Json) (x : Json) :
    (l ++ [x]).contains x = true := by
  rw [json_contains_append]
  simp [List.contains_cons]
  exact Or.inr (jsonBeq_refl x)

theorem hookAppendLoop_split (ss : List Json) :
    ∀ acc, ∃ t, hookAppendLoop acc ss = acc ++ t ∧
      ∀ x ∈ t, x ∈ ss ∧ acc.contains x = false := by
  induction ss with
  | nil => exact fun acc => ⟨[], by simp [hookAppendLoop], by simp⟩
  | cons y rest ih =>
    intro acc
    by_cases hy : acc.contains y
    · obtain ⟨t, h1, h2⟩ := ih acc
      refine ⟨t, by simp [hookAppendLoop, hy, h1], ?_⟩
      intro x hx
      exact ⟨List.mem_cons_of_mem _ (h2 x hx).1, (h2 x hx).2⟩
    · obtain ⟨t, h1, h2⟩ := ih (acc ++ [y])
      refine ⟨y :: t, ?_, ?_⟩
      · simp only [hookAppendLoop, hy, Bool.false_eq_true, if_false, h1, List.append_assoc,
          List.singleton_append]
      · intro x hx
        rcases List.mem_cons.mp hx with hx | hx
        · subst hx
          exact ⟨List.mem_cons_self _ _, by simpa using hy⟩
        · have h3 := (h2 x hx).2
          rw [json_contains_append] at h3
          refine ⟨List.mem_cons_of_mem _ (h2 x hx).1, ?_⟩
          cases h4 : acc.contains x
          · rfl
          · rw [h4] at h3
            simp at h3

theorem hookAppendLoop_contains_mono (ss : List Json) :
    ∀ acc x, acc.contains x = true → (hookAppendLoop acc ss).contains x = true := by
  induction ss with
  | nil => intro acc x hx; simpa [hookAppendLoop] using hx
  | cons y rest ih =>
    intro acc x hx
    by_cases hy : acc.contains y
    · simp only [hookAppendLoop, hy, if_pos]
      exact ih acc x hx
    · simp only [hookAppendLoop, hy, Bool.false_eq_true, if_false]
      refine ih _ x ?_
      rw [json_contains_append, hx]
      rfl

theorem hookAppendLoop_contains_of_mem (ss : List Json) :
    ∀ acc x, x ∈ ss → (hookAppendLoop acc ss).contains x = true := by
  induction ss with
  | nil => intro _ _ hx; cases hx
  | cons y rest ih =>
    intro acc x hx
    rcases List.mem_cons.mp hx with hx | hx
    · have hcond : (if acc.contains y = true then acc else acc ++ [y]).contains x = true := by
        by_cases h4 : acc.contains y
        · rw [if_pos h4, hx]
          exact h4
        · rw [if_neg h4, hx]
          exact json_contains_self acc y
      have hres := hookAppendLoop_contains_mono rest _ x hcond
      simpa [hookAppendLoop] using hres
    · have hres := ih (if acc.contains y = true then acc else acc ++ [y]) x hx
      simpa [hookAppendLoop] using hres

theorem getKey_setKeyVal_self (m : List (String × Json)) (k : String) (v : Json)
    (h : (getKey m k).isSome) : getKey (setKeyVal m k v) k = some v := by
  induction m with
  | nil => simp [getKey] at h
  | cons kv rest ih =>
    obtain ⟨k0, v0⟩ := kv
    by_cases h0 : k0 = k
    · simp [setKeyVal, getKey, h0]
    · simp only [setKeyVal, if_neg h0, getKey]
      refine ih ?_
      simpa [getKey, if_neg h0] using h

theorem getKey_setKeyVal_ne (m : List (String × Json)) (k k' : String) (v : Json)
    (h : k' ≠ k) : getKey (setKeyVal m k v) k' = getKey m k' := by
  induction m with
  | nil => simp [setKeyVal]
  | cons kv rest ih =>
    obtain ⟨k0, v0⟩ := kv
    by_cases h0 : k0 = k
    · have hne : k ≠ k' := fun hc => h hc.symm
      simp [setKeyVal, getKey, h0, hne]
    · simp only [setKeyVal, if_neg h0, getKey]
      by_cases h1 : k0 = k' <;> simp [h1, ih]

theorem flatMap_congr_mem {α β : Type} (l : List α) (f g : α → List β)
    (h : ∀ a ∈ l, f a = g a) : l.flatMap f = l.flatMap g := by
  induction l with
  | nil => rfl
  | cons a l ih =>
    rw [List.flatMap_cons, List.flatMap_cons, h a (by simp),
      ih (fun a ha => h a (by simp [ha]))]

theorem wfArena_spec (ns : List TreeNode) (h : wfArena ns = true) :
    ∀ i node, ns.get? i = some node → ∀ c ∈ node.childIndices, i < c ∧ c < ns.length := by
  intro i node hn c hc
  have hmem : (i, node) ∈ ns.enum := by
    rw [List.mk_mem_enum_iff_getElem?, ← List.get?_eq_getElem?]
    exact hn
  have h1 := (List.all_eq_true.mp h) (i, node) hmem
  have h2 := (List.all_eq_true.mp h1) c hc
  simp at h2
  exact h2

theorem addVis_ge (ns : List TreeNode)
    (hwf : ∀ i node, ns.get? i = some node → ∀ c ∈ node.childIndices, i < c ∧ c < ns.length) :
    ∀ fuel i x, x ∈ addVisibleRecursive ns fuel i → i ≤ x := by
  intro fuel
  induction fuel with
  | zero =>
    intro i x hx
    simp [addVisibleRecursive] at hx
  | succ fuel ih =>
    intro i x hx
    cases hn : ns.get? i with
    | none =>
      simp only [addVisibleRecursive, hn] at hx
      simp at hx
      omega
    | some node =>
      cases node with
      | file ci d p =>
        simp only [addVisibleRecursive, hn] at hx
        simp at hx
        omega
      | folder nm pth exp cs d p =>
        simp only [addVisibleRecursive, hn] at hx
        rcases List.mem_cons.mp hx with hx | hx
        · omega
        · cases exp with
          | false => simp at hx
          | true =>
            simp only [if_pos] at hx
            obtain ⟨c, hc, hxc⟩ := List.mem_flatMap.mp hx
            have h1 := (hwf i _ hn c hc).1
            have h2 := ih c x hxc
            omega

theorem addVis_desc (ns : List TreeNode) :
    ∀ fuel i x, x ∈ addVisibleRecursive ns fuel i → Desc ns i x := by
  intro fuel
  induction fuel with
  | zero =>
    intro i x hx
    simp [addVisibleRecursive] at hx
  | succ fuel ih =>
    intro i x hx
    cases hn : ns.get? i with
    | none =>
      simp only [addVisibleRecursive, hn] at hx
      simp at hx
      exact hx ▸ Desc.refl x
    | some node =>
      cases node with
      | file ci d p =>
        simp only [addVisibleRecursive, hn] at hx
        simp at hx
        exact hx ▸ Desc.refl x
      | folder nm pth exp cs d p =>
        simp only [addVisibleRecursive, hn] at hx
        rcases List.mem_cons.mp hx with hx | hx
        · exact hx ▸ Desc.refl x
        · cases exp with
          | false => simp at hx
          | true =>
            simp only [if_pos] at hx
            obtain ⟨c, hc, hxc⟩ := List.mem_flatMap.mp hx
            exact Desc.child i c x _ hn hc (ih c x hxc)

theorem addVis_stab (ns : List TreeNode)
    (hwf : ∀ i node, ns.get? i = some node → ∀ c ∈ node.childIndices, i < c ∧ c < ns.length) :
    ∀ k fuel1 fuel2 i, ns.length - i ≤ k → i < ns.length →
      ns.length - i ≤ fuel1 → ns.length - i ≤ fuel2 →
      addVisibleRecursive ns fuel1 i = addVisibleRecursive ns fuel2 i := by
  intro k
  induction k with
  | zero =>
    intro f1 f2 i hk hi h1 h2
    omega
  | succ k ih =>
    intro f1 f2 i hk hi h1 h2
    cases f1 with
    | zero => omega
    | succ f1 =>
      cases f2 with
      | zero => omega
      | succ f2 =>
        cases hn : ns.get? i with
        | none =>
          have hn' : ns[i]? = none := by rw [← List.get?_eq_getElem?]; exact hn
          simp [addVisibleRecursive, hn']
        | some node =>
          have hn' : ns[i]? = some node := by rw [← List.get?_eq_getElem?]; exact hn
          cases node with
          | file ci d p => simp [addVisibleRecursive, hn']
          | folder nm pth exp cs d p =>
            cases exp with
            | false => simp [addVisibleRecursive, hn']
            | true =>
              simp only [addVisibleRecursive, hn, if_pos, List.cons.injEq, true_and]
              exact flatMap_congr_mem cs _ _ (fun c hc => by
                have hcw := hwf i _ hn c hc
                exact ih f1 f2 c (by omega) hcw.2 (by omega) (by omega))

theorem count_flatMap_one_split {α : Type} (f : Nat) :
    ∀ (L : List α) (g : α → List Nat), (L.flatMap g).count f = 1 →
      ∃ u c v, L = u ++ c :: v ∧ (g c).count f = 1 ∧
        (∀ a ∈ u, f ∉ g a) ∧ (∀ a ∈ v, f ∉ g a) := by
  intro L
  induction L with
  | nil =>
    intro g h
    simp at h
  | cons a L ih =>
    intro g h
    rw [List.flatMap_cons, List.count_append] at h
    cases hga : (g a).count f with
    | zero =>
      rw [hga, Nat.zero_add] at h
      obtain ⟨u, c, v, h1, h2, h3, h4⟩ := ih g h
      refine ⟨a :: u, c, v, by rw [h1]; rfl, h2, ?_, h4⟩
      intro b hb
      rcases List.mem_cons.mp hb with hb | hb
      · subst hb
        exact List.count_eq_zero.mp hga
      · exact h3 b hb
    | succ n =>
      cases n with
      | zero =>
        have hrest : (L.flatMap g).count f = 0 := by omega
        refine ⟨[], a, L, rfl, hga, by simp, ?_⟩
        intro b hb hmem
        exact absurd (List.mem_flatMap.mpr ⟨b, hb, hmem⟩) (List.count_eq_zero.mp hrest)
      | succ m =>
        rw [hga] at h
        omega

theorem get?_pos_unique (A B : List Nat) (f : Nat) (hA : f ∉ A) (hB : f ∉ B) :
    ∀ k, (A ++ f :: B).get? k = some f → k = A.length := by
  intro k hk
  rcases Nat.lt_trichotomy k A.length with h | h | h
  · rw [List.get?_append h] at hk
    exact absurd (List.get?_mem hk) hA
  · exact h
  · rw [List.get?_append_right (by omega)] at hk
    have heq : k - A.length = (k - A.length - 1) + 1 := by omega
    rw [heq, List.get?_cons_succ] at hk
    exact absurd (List.get?_mem hk) hB

theorem set_get?_self {α : Type} :
    ∀ (l : List α) (n : Nat) (a : α), l.get? n = some a → l.set n a = l := by
  intro l
  induction l with
  | nil =>
    intro n a h
    simp [List.get?] at h
  | cons x l ih =>
    intro n a h
    cases n with
    | zero =>
      injection h with h
      rw [← h]
      rfl
    | succ n =>
      rw [List.get?_cons_succ] at h
      show x :: l.set n a = x :: l
      rw [ih n a h]

/-- Collapsing the expanded folder `f` removes, from any subtree walk that
visits `f` exactly once, precisely the walk of `f`'s children; walks that
never visit `f` are unchanged. -/
theorem addVis_collapse_split
    (ns : List TreeNode)
    (hwf : ∀ i node, ns.get? i = some node → ∀ c ∈ node.childIndices, i < c ∧ c < ns.length)
    (f : Nat) (nm pth : String) (cs : List Nat) (dp : Nat) (pr : Option Nat)
    (hf : ns.get? f = some (TreeNode.folder nm pth true cs dp pr)) :
    ∀ fuel i, ns.length - i ≤ fuel → i < ns.length →
      (f ∉ addVisibleRecursive ns fuel i →
        addVisibleRecursive (ns.set f (TreeNode.folder nm pth false cs dp pr)) fuel i
          = addVisibleRecursive ns fuel i) ∧
      ((addVisibleRecursive ns fuel i).count f = 1 →
        ∃ A B, addVisibleRecursive ns fuel i
            = A ++ f :: ((cs.flatMap fun c => addVisibleRecursive ns ns.length c) ++ B) ∧
          addVisibleRecursive (ns.set f (TreeNode.folder nm pth false cs dp pr)) fuel i
            = A ++ f :: B ∧ f ∉ A ∧ f ∉ B) := by
  intro fuel
  induction fuel with
  | zero =>
    intro i h1 hi
    omega
  | succ fuel ih =>
    intro i h1 hi
    by_cases hif : i = f
    · subst hif
      have hn1 : ns[i]? = some (TreeNode.folder nm pth true cs dp pr) := by
        rw [← List.get?_eq_getElem?]; exact hf
      have hwalk : addVisibleRecursive ns (fuel + 1) i
          = i :: cs.flatMap (fun c => addVisibleRecursive ns fuel c) := by
        simp [addVisibleRecursive, hn1]
      have hD : cs.flatMap (fun c => addVisibleRecursive ns fuel c)
          = cs.flatMap (fun c => addVisibleRecursive ns ns.length c) := by
        refine flatMap_congr_mem _ _ _ (fun c hc => ?_)
        have hcw := hwf i _ hf c hc
        exact addVis_stab ns hwf ns.length fuel ns.length c (by omega) hcw.2 (by omega)
          (by omega)
      have hwalk' : addVisibleRecursive
          (ns.set i (TreeNode.folder nm pth false cs dp pr)) (fuel + 1) i = [i] := by
        have hg : (ns.set i (TreeNode.folder nm pth false cs dp pr))[i]?
            = some (TreeNode.folder nm pth false cs dp pr) := by
          rw [← List.get?_eq_getElem?, List.get?_set_eq, hf]
          rfl
        simp [addVisibleRecursive, hg]
      constructor
      · intro hnot
        rw [hwalk] at hnot
        exact absurd (List.mem_cons_self _ _) hnot
      · intro _
        refine ⟨[], [], ?_, ?_, by simp, by simp⟩
        · rw [hwalk, hD]
          simp
        · rw [hwalk']
          rfl
    · have hget' : (ns.set f (TreeNode.folder nm pth false cs dp pr)).get? i = ns.get? i :=
        List.get?_set_ne _ _ (Ne.symm hif)
      cases hn : ns.get? i with
      | none =>
        exfalso
        rw [List.get?_eq_none] at hn
        omega
      | some node =>
        have hn1 : ns[i]? = some node := by rw [← List.get?_eq_getElem?]; exact hn
        have hn1' : (ns.set f (TreeNode.folder nm pth false cs dp pr))[i]? = some node := by
          rw [← List.get?_eq_getElem?, hget']; exact hn
        cases node with
        | file ci d pp =>
          have e1 : addVisibleRecursive ns (fuel + 1) i = [i] := by
            simp [addVisibleRecursive, hn1]
          have e2 : addVisibleRecursive
              (ns.set f (TreeNode.folder nm pth false cs dp pr)) (fuel + 1) i = [i] := by
            simp [addVisibleRecursive, hn1']
          constructor
          · intro _
            rw [e1, e2]
          · intro hcount
            rw [e1] at hcount
            simp [List.count_cons, List.count_nil, hif] at hcount
        | folder nm2 pth2 exp2 cs2 d2 p2 =>
          cases exp2 with
          | false =>
            have e1 : addVisibleRecursive ns (fuel + 1) i = [i] := by
              simp [addVisibleRecursive, hn1]
            have e2 : addVisibleRecursive
                (ns.set f (TreeNode.folder nm pth false cs dp pr)) (fuel + 1) i = [i] := by
              simp [addVisibleRecursive, hn1']
            constructor
            · intro _
              rw [e1, e2]
            · intro hcount
              rw [e1] at hcount
              simp [List.count_cons, List.count_nil, hif] at hcount
          | true =>
            have e1 : addVisibleRecursive ns (fuel + 1) i
                = i :: cs2.flatMap (fun c => addVisibleRecursive ns fuel c) := by
              simp [addVisibleRecursive, hn1]
            have e2 : addVisibleRecursive
                (ns.set f (TreeNode.folder nm pth false cs dp pr)) (fuel + 1) i
                = i :: cs2.flatMap (fun c =>
                    addVisibleRecursive (ns.set f (TreeNode.folder nm pth false cs dp pr)) fuel c) := by
              simp [addVisibleRecursive, hn1']
            have hcw : ∀ c ∈ cs2, i < c ∧ c < ns.length := hwf i _ hn
            constructor
            · intro hnot
              rw [e1] at hnot
              rw [e1, e2]
              congr 1
              refine flatMap_congr_mem _ _ _ (fun c hc => ?_)
              refine (ih c (by have := hcw c hc; omega) (hcw c hc).2).1 ?_
              intro hmem
              exact hnot (List.mem_cons_of_mem _ (List.mem_flatMap.mpr ⟨c, hc, hmem⟩))
            · intro hcount
              rw [e1, List.count_cons] at hcount
              have hcnt2 : (cs2.flatMap (fun c => addVisibleRecursive ns fuel c)).count f = 1 := by
                have hbeq : (i == f) = false := by
                  simp [hif]
                rw [hbeq] at hcount
                simpa using hcount
              obtain ⟨u, c0, v, hsplit, hc1, hu, hv⟩ :=
                count_flatMap_one_split f cs2 _ hcnt2
              have hc0mem : c0 ∈ cs2 := by
                rw [hsplit]
                exact List.mem_append_right _ (List.mem_cons_self _ _)
              obtain ⟨A2, B2, ha1, ha2, ha3, ha4⟩ :=
                (ih c0 (by have := hcw c0 hc0mem; omega) (hcw c0 hc0mem).2).2 hc1
              have huv : ∀ c, c ∈ u ∨ c ∈ v →
                  addVisibleRecursive (ns.set f (TreeNode.folder nm pth false cs dp pr)) fuel c
                    = addVisibleRecursive ns fuel c := by
                intro c hc
                have hcm : c ∈ cs2 := by
                  rw [hsplit]
                  rcases hc with hc | hc
                  · exact List.mem_append_left _ hc
                  · exact List.mem_append_right _ (List.mem_cons_of_mem _ hc)
                refine (ih c (by have := hcw c hcm; omega) (hcw c hcm).2).1 ?_
                rcases hc with hc | hc
                · exact hu c hc
                · exact hv c hc
              refine ⟨i :: ((u.flatMap fun c => addVisibleRecursive ns fuel c) ++ A2),
                      B2 ++ (v.flatMap fun c => addVisibleRecursive ns fuel c), ?_, ?_, ?_, ?_⟩
              · rw [e1, hsplit, List.flatMap_append, List.flatMap_cons, ha1]
                simp [List.append_assoc]
              · rw [e2, hsplit, List.flatMap_append, List.flatMap_cons, ha2]
                rw [flatMap_congr_mem u _ _ (fun c hc => huv c (Or.inl hc)),
                  flatMap_congr_mem v _ _ (fun c hc => huv c (Or.inr hc))]
                simp [List.append_assoc]
              · intro hmem
                rcases List.mem_cons.mp hmem with hmem | hmem
                · exact hif hmem.symm
                · rcases List.mem_append.mp hmem with hmem | hmem
                  · obtain ⟨c, hc, hfc⟩ := List.mem_flatMap.mp hmem
                    exact hu c hc hfc
                  · exact ha3 hmem
              · intro hmem
                rcases List.mem_append.mp hmem with hmem | hmem
                · exact ha4 hmem
                · obtain ⟨c, hc, hfc⟩ := List.mem_flatMap.mp hmem
                  exact hv c hc hfc

theorem rebuildVisible_cursor_lt (t : TreeView)
    (h : t.cursor < (rebuildVisibleList t).length) :
    (TreeView.rebuildVisible t).cursor = t.cursor := by
  have he : (TreeView.rebuildVisible t).cursor
      = if !(rebuildVisibleList t).isEmpty ∧ t.cursor ≥ (rebuildVisibleList t).length
        then (rebuildVisibleList t).length - 1 else t.cursor := by
    simp [TreeView.rebuildVisible]
  rw [he, if_neg]
  intro hc
  omega

/-- **C7** Collapsing an expanded folder removes exactly its visible
subtree from the visible-index list — the list splits as
`A ++ f :: (D ++ B)` before and `A ++ f :: B` after, where `D` is the walk
of `f`'s children and every element of `D` is a descendant of `f` — and
toggling the same folder again restores a visible-index list identical,
element for element, to the one before the collapse. -/
theorem toggleExpand_collapse_restore
    (t : TreeView) (f : Nat) (nm pth : String) (cs : List Nat) (dp : Nat) (pr : Option Nat)
    (hwfb : wfArena t.nodes = true)
    (hroots : ∀ r ∈ t.rootChildren, r < t.nodes.length)
    (hvis : t.visibleIndices = rebuildVisibleList t)
    (hcur : t.visibleIndices.get? t.cursor = some f)
    (hcount : t.visibleIndices.count f ≤ 1)
    (hf : t.nodes.get? f = some (TreeNode.folder nm pth true cs dp pr)) :
    ∃ A B,
      t.visibleIndices
        = A ++ f :: ((cs.flatMap fun c => addVisibleRecursive t.nodes t.nodes.length c) ++ B) ∧
      t.toggleExpand.visibleIndices = A ++ f :: B ∧
      (∀ x ∈ cs.flatMap (fun c => addVisibleRecursive t.nodes t.nodes.length c),
        ∃ c ∈ cs, Desc t.nodes c x) ∧
      t.toggleExpand.toggleExpand.visibleIndices = t.visibleIndices := by
  have hwf := wfArena_spec t.nodes hwfb
  have hflen : f < t.nodes.length := by
    rcases Nat.lt_or_ge f t.nodes.length with h | h
    · exact h
    · rw [List.get?_eq_none.mpr h] at hf
      cases hf
  have hfmem : f ∈ t.visibleIndices := List.get?_mem hcur
  have hcount1 : t.visibleIndices.count f = 1 := by
    have : t.visibleIndices.count f ≠ 0 := fun h0 => (List.count_eq_zero.mp h0) hfmem
    omega
  have hvisflat : t.visibleIndices
      = t.rootChildren.flatMap (fun r => addVisibleRecursive t.nodes t.nodes.length r) :=
    hvis
  obtain ⟨u, r0, v, hrsplit, hc1, hu, hv⟩ :=
    count_flatMap_one_split f t.rootChildren _ (by rw [← hvisflat]; exact hcount1)
  have hr0len : r0 < t.nodes.length := by
    refine hroots r0 ?_
    rw [hrsplit]
    exact List.mem_append_right _ (List.mem_cons_self _ _)
  obtain ⟨A2, B2, ha1, ha2, ha3, ha4⟩ :=
    (addVis_collapse_split t.nodes hwf f nm pth cs dp pr hf t.nodes.length r0
      (by omega) hr0len).2 hc1
  -- the collapsed arena
  have hlen' : (t.nodes.set f (TreeNode.folder nm pth false cs dp pr)).length
      = t.nodes.length := List.length_set ..
  have huv : ∀ r, r ∈ u ∨ r ∈ v →
      addVisibleRecursive (t.nodes.set f (TreeNode.folder nm pth false cs dp pr))
        t.nodes.length r
        = addVisibleRecursive t.nodes t.nodes.length r := by
    intro r hr
    have hrm : r ∈ t.rootChildren := by
      rw [hrsplit]
      rcases hr with hr | hr
      · exact List.mem_append_left _ hr
      · exact List.mem_append_right _ (List.mem_cons_of_mem _ hr)
    refine (addVis_collapse_split t.nodes hwf f nm pth cs dp pr hf t.nodes.length r
      (by omega) (hroots r hrm)).1 ?_
    rcases hr with hr | hr
    · exact hu r hr
    · exact hv r hr
  -- the decomposition of the visible list
  have hsplitvis : t.visibleIndices
      = ((u.flatMap fun r => addVisibleRecursive t.nodes t.nodes.length r) ++ A2)
        ++ f :: (((cs.flatMap fun c => addVisibleRecursive t.nodes t.nodes.length c))
          ++ (B2 ++ (v.flatMap fun r => addVisibleRecursive t.nodes t.nodes.length r))) := by
    rw [hvisflat, hrsplit, List.flatMap_append, List.flatMap_cons, ha1]
    simp [List.append_assoc]
  -- D contains no occurrence of f and only descendants
  have hfD : f ∉ (cs.flatMap fun c => addVisibleRecursive t.nodes t.nodes.length c) := by
    intro hmem
    obtain ⟨c, hc, hx⟩ := List.mem_flatMap.mp hmem
    have h1 := (hwf f _ hf c hc).1
    have h2 := addVis_ge t.nodes hwf t.nodes.length c f hx
    omega
  have hfA : f ∉ (u.flatMap fun r => addVisibleRecursive t.nodes t.nodes.length r) ++ A2 := by
    intro hmem
    rcases List.mem_append.mp hmem with hmem | hmem
    · obtain ⟨r, hr, hx⟩ := List.mem_flatMap.mp hmem
      exact hu r hr hx
    · exact ha3 hmem
  have hfB : f ∉ B2 ++ (v.flatMap fun r => addVisibleRecursive t.nodes t.nodes.length r) := by
    intro hmem
    rcases List.mem_append.mp hmem with hmem | hmem
    · exact ha4 hmem
    · obtain ⟨r, hr, hx⟩ := List.mem_flatMap.mp hmem
      exact hv r hr hx
  -- collapse step
  have ht1 : t.toggleExpand = TreeView.rebuildVisible
      { t with nodes := t.nodes.set f (TreeNode.folder nm pth false cs dp pr) } := by
    have hcur' : t.currentNodeIdx = some f := hcur
    simp only [TreeView.toggleExpand, hcur', hf, Bool.not_true]
  have hvis1 : t.toggleExpand.visibleIndices
      = ((u.flatMap fun r => addVisibleRecursive t.nodes t.nodes.length r) ++ A2)
        ++ f :: (B2 ++ (v.flatMap fun r => addVisibleRecursive t.nodes t.nodes.length r)) := by
    rw [ht1]
    show rebuildVisibleList { t with nodes := t.nodes.set f (TreeNode.folder nm pth false cs dp pr) } = _
    show t.rootChildren.flatMap (fun r =>
      addVisibleRecursive (t.nodes.set f (TreeNode.folder nm pth false cs dp pr))
        (t.nodes.set f (TreeNode.folder nm pth false cs dp pr)).length r) = _
    rw [hlen', hrsplit, List.flatMap_append, List.flatMap_cons, ha2,
      flatMap_congr_mem u _ _ (fun r hr => huv r (Or.inl hr)),
      flatMap_congr_mem v _ _ (fun r hr => huv r (Or.inr hr))]
    simp [List.append_assoc]
  refine ⟨(u.flatMap fun r => addVisibleRecursive t.nodes t.nodes.length r) ++ A2,
          B2 ++ (v.flatMap fun r => addVisibleRecursive t.nodes t.nodes.length r),
          hsplitvis, hvis1, ?_, ?_⟩
  · intro x hx
    obtain ⟨c, hc, hxc⟩ := List.mem_flatMap.mp hx
    exact ⟨c, hc, addVis_desc t.nodes t.nodes.length c x hxc⟩
  -- restore step
  · have hcursorA : t.cursor
        = ((u.flatMap fun r => addVisibleRecursive t.nodes t.nodes.length r) ++ A2).length := by
      refine get?_pos_unique _ _ f hfA ?_ t.cursor (by rw [← hsplitvis]; exact hcur)
      intro hmem
      rcases List.mem_append.mp hmem with hmem | hmem
      · exact hfD hmem
      · exact hfB hmem
    have hcursor1 : t.toggleExpand.cursor = t.cursor := by
      rw [ht1]
      refine rebuildVisible_cursor_lt _ ?_
      have hvv : rebuildVisibleList
          { t with nodes := t.nodes.set f (TreeNode.folder nm pth false cs dp pr) }
          = t.toggleExpand.visibleIndices := by
        rw [ht1]
        rfl
      rw [hvv, hvis1, hcursorA]
      simp [List.length_append]
    have hnodes1 : t.toggleExpand.nodes
        = t.nodes.set f (TreeNode.folder nm pth false cs dp pr) := by
      rw [ht1]
      rfl
    have hroots1 : t.toggleExpand.rootChildren = t.rootChildren := by
      rw [ht1]
      rfl
    have hcur1 : t.toggleExpand.currentNodeIdx = some f := by
      show t.toggleExpand.visibleIndices.get? t.toggleExpand.cursor = some f
      rw [hvis1, hcursor1, hcursorA, List.get?_append_right (Nat.le_refl _)]
      simp
    have hgetf1 : t.toggleExpand.nodes.get? f
        = some (TreeNode.folder nm pth false cs dp pr) := by
      rw [hnodes1, List.get?_set_eq, hf]
      rfl
    have hnodes2 : (t.toggleExpand.nodes.set f (TreeNode.folder nm pth true cs dp pr))
        = t.nodes := by
      rw [hnodes1, List.set_set]
      exact set_get?_self t.nodes f _ hf
    have ht2 : t.toggleExpand.toggleExpand = TreeView.rebuildVisible
        { t.toggleExpand with nodes := t.nodes } := by
      generalize hT : t.toggleExpand = T at hcur1 hgetf1 hnodes2 ⊢
      simp only [TreeView.toggleExpand, hcur1, hgetf1, Bool.not_false]
      rw [hnodes2]
    rw [ht2]
    show rebuildVisibleList { t.toggleExpand with nodes := t.nodes } = t.visibleIndices
    show t.toggleExpand.rootChildren.flatMap
      (fun r => addVisibleRecursive t.nodes t.nodes.length r) = t.visibleIndices
    rw [hroots1, ← hvisflat]

/-- Witness for C7: collapsing the root folder of a three-node tree and
re-expanding it. -/
theorem toggleExpand_collapse_restore_witness :
    wfArena (TreeView.mk
        [TreeNode.folder "f" "f" true [1, 2] 0 none,
         TreeNode.file 0 1 (some 0), TreeNode.file 1 1 (some 0)]
        [0, 1, 2] 0 [0]).nodes = true ∧
    (TreeView.mk
        [TreeNode.folder "f" "f" true [1, 2] 0 none,
         TreeNode.file 0 1 (some 0), TreeNode.file 1 1 (some 0)]
        [0, 1, 2] 0 [0]).visibleIndices.count 0 ≤ 1 ∧
    ∃ A B,
      (TreeView.mk
          [TreeNode.folder "f" "f" true [1, 2] 0 none,
           TreeNode.file 0 1 (some 0), TreeNode.file 1 1 (some 0)]
          [0, 1, 2] 0 [0]).visibleIndices
        = A ++ 0 :: (([1, 2].flatMap fun c =>
            addVisibleRecursive
              [TreeNode.folder "f" "f" true [1, 2] 0 none,
               TreeNode.file 0 1 (some 0), TreeNode.file 1 1 (some 0)] 3 c) ++ B) ∧
      (TreeView.mk
          [TreeNode.folder "f" "f" true [1, 2] 0 none,
           TreeNode.file 0 1 (some 0), TreeNode.file 1 1 (some 0)]
          [0, 1, 2] 0 [0]).toggleExpand.visibleIndices = A ++ 0 :: B ∧
      (∀ x ∈ [1, 2].flatMap (fun c =>
          addVisibleRecursive
            [TreeNode.folder "f" "f" true [1, 2] 0 none,
             TreeNode.file 0 1 (some 0), TreeNode.file 1 1 (some 0)] 3 c),
        ∃ c ∈ [1, 2], Desc
          [TreeNode.folder "f" "f" true [1, 2] 0 none,
           TreeNode.file 0 1 (some 0), TreeNode.file 1 1 (some 0)] c x) ∧
      (TreeView.mk
          [TreeNode.folder "f" "f" true [1, 2] 0 none,
           TreeNode.file 0 1 (some 0), TreeNode.file 1 1 (some 0)]
          [0, 1, 2] 0 [0]).toggleExpand.toggleExpand.visibleIndices
        = (TreeView.mk
            [TreeNode.folder "f" "f" true [1, 2] 0 none,
             TreeNode.file 0 1 (some 0), TreeNode.file 1 1 (some 0)]
            [0, 1, 2] 0 [0]).visibleIndices :=
  ⟨by decide, by decide,
    toggleExpand_collapse_restore
      (TreeView.mk
        [TreeNode.folder "f" "f" true [1, 2] 0 none,
         TreeNode.file 0 1 (some 0), TreeNode.file 1 1 (some 0)]
        [0, 1, 2] 0 [0])
      0 "f" "f" [1, 2] 0 none
      (by decide) (by decide) rfl rfl (by decide) rfl⟩

/-! ## Claim theorems -/

/-- **C1** If a cancellation signal is sent strictly after the spawned child
process has already exited with a zero status, the recorded outcome is
`Success`, never `Cancelled`: along a trace whose iterations before the
exit observe a still-running child with neither timeout nor pending cancel,
the iteration that observes the successful exit returns success regardless
of whether a cancellation arrived in that same tick or later, because the
completion check runs before the cancellation read. -/
theorem spawnCancelableProcess_success_beats_cancel
    (pre rest : List Tick) (t : Tick)
    (hpre : ∀ s ∈ pre, s.timeoutExpired = false ∧ s.wait = WaitRes.stillRunning ∧
      s.cancelPending = false)
    (ht1 : t.timeoutExpired = false) (ht2 : t.wait = WaitRes.exited true) :
    spawnCancelableProcess (pre ++ t :: rest) = ProcOutcome.success := by
  induction pre with
  | nil => simp [spawnCancelableProcess, ht1, ht2]
  | cons s pre ih =>
    obtain ⟨h1, h2, h3⟩ := hpre s (by simp)
    have hrec := ih (fun s hs => hpre s (by simp [hs]))
    simp [spawnCancelableProcess, h1, h2, h3, hrec]

/-- Witness for C1: a cancellation pending in the very tick in which the
child is observed to have exited successfully still yields success. -/
theorem spawnCancelableProcess_success_beats_cancel_witness :
    (∀ s ∈ [Tick.mk false WaitRes.stillRunning false],
        s.timeoutExpired = false ∧ s.wait = WaitRes.stillRunning ∧ s.cancelPending = false) ∧
    spawnCancelableProcess
      [Tick.mk false WaitRes.stillRunning false,
       Tick.mk false (WaitRes.exited true) true,
       Tick.mk false WaitRes.stillRunning true] = ProcOutcome.success :=
  ⟨by decide,
    spawnCancelableProcess_success_beats_cancel
      [Tick.mk false WaitRes.stillRunning false]
      [Tick.mk false WaitRes.stillRunning true]
      (Tick.mk false (WaitRes.exited true) true)
      (by decide) (by decide) (by decide)⟩

/-- The invariant of the channel state: the current pair's two ends carry
the same generation, and every exposed generation is below `nextId`. -/
def ChanInv (c : Channels) : Prop :=
  c.cancelTxId = c.cancelRxId ∧ c.cancelRxId < c.nextId ∧ c.currentCancelTxId < c.nextId

theorem chanInv_new : ChanInv Channels.new :=
  ⟨rfl, Nat.zero_lt_one, Nat.zero_lt_one⟩

theorem chanInv_dispatch (c : Channels) (h : ChanInv c) :
    ChanInv (dispatchCancelSetup c).1 := by
  obtain ⟨h1, h2, _⟩ := h
  exact ⟨rfl, Nat.lt_succ_self _, Nat.lt_succ_of_lt (h1 ▸ h2)⟩

theorem chanInv_reset (c : Channels) (h : ChanInv c) :
    ChanInv (Channels.resetCancelChannel c) := by
  obtain ⟨_, _, h3⟩ := h
  exact ⟨rfl, Nat.lt_succ_self _, Nat.lt_succ_of_lt h3⟩

/-- Every receiver generation handed out by a dispatch is bounded below:
when an operation is in flight it is at least `nextId` (the current pair
was already consumed), and when idle it is either the current receiver or
at least `nextId`. -/
theorem runChannels_dispatch_lb (es : List ChanEvent) :
    ∀ c active, ChanInv c →
      ∀ A r C, runChannels c active es = A ++ (true, r) :: C →
        (active = true → c.nextId ≤ r) ∧ (active = false → r = c.cancelRxId ∨ c.nextId ≤ r) := by
  induction es with
  | nil =>
    intro c active _ A r C h
    rw [show runChannels c active [] = [] from rfl] at h
    cases A <;> simp at h
  | cons e es ih =>
    intro c active hinv A r C h
    cases e with
    | dispatch =>
      cases active with
      | true =>
        rw [show runChannels c true (ChanEvent.dispatch :: es) = runChannels c true es from rfl] at h
        exact ih c true hinv A r C h
      | false =>
        rw [show runChannels c false (ChanEvent.dispatch :: es)
            = (true, c.cancelRxId) :: runChannels (dispatchCancelSetup c).1 true es from rfl] at h
        cases A with
        | nil =>
          rw [List.nil_append] at h
          injection h with h1 h2
          injection h1 with _ hx
          exact ⟨(fun hc => nomatch hc), fun _ => Or.inl hx.symm⟩
        | cons a A2 =>
          rw [List.cons_append] at h
          injection h with h1 h2
          have hr := (ih (dispatchCancelSetup c).1 true (chanInv_dispatch c hinv) A2 r C h2).1 rfl
          exact ⟨(fun hc => nomatch hc), fun _ => Or.inr (Nat.le_trans (Nat.le_succ _) hr)⟩
    | complete =>
      cases active with
      | true =>
        rw [show runChannels c true (ChanEvent.complete :: es)
            = runChannels (Channels.resetCancelChannel c) false es from rfl] at h
        have hr := (ih (Channels.resetCancelChannel c) false (chanInv_reset c hinv) A r C h).2 rfl
        refine ⟨fun _ => ?_, fun hc => nomatch hc⟩
        rcases hr with h' | h'
        · exact Nat.le_of_eq h'.symm
        · exact Nat.le_trans (Nat.le_succ _) h'
      | false =>
        rw [show runChannels c false (ChanEvent.complete :: es) = runChannels c false es from rfl] at h
        exact ih c false hinv A r C h
    | cancelSend =>
      cases active with
      | true =>
        rw [show runChannels c true (ChanEvent.cancelSend :: es)
            = (false, c.currentCancelTxId) :: runChannels c true es from rfl] at h
        cases A with
        | nil =>
          rw [List.nil_append] at h
          injection h with h1 h2
          injection h1 with hb _
          exact absurd hb (by simp)
        | cons a A2 =>
          rw [List.cons_append] at h
          injection h with h1 h2
          exact ih c true hinv A2 r C h2
      | false =>
        rw [show runChannels c false (ChanEvent.cancelSend :: es) = runChannels c false es from rfl] at h
        exact ih c false hinv A r C h

/-- Any generation exposed in the trace strictly precedes (is less than)
the receiver generation of every later dispatch. -/
theorem runChannels_earlier_lt (es : List ChanEvent) :
    ∀ c active, ChanInv c →
      ∀ A b x B r C,
        runChannels c active es = A ++ (b, x) :: B ++ (true, r) :: C →
        x < r := by
  induction es with
  | nil =>
    intro c active _ A b x B r C h
    rw [show runChannels c active [] = [] from rfl] at h
    cases A <;> simp at h
  | cons e es ih =>
    intro c active hinv A b x B r C h
    cases e with
    | dispatch =>
      cases active with
      | true =>
        rw [show runChannels c true (ChanEvent.dispatch :: es) = runChannels c true es from rfl] at h
        exact ih c true hinv A b x B r C h
      | false =>
        rw [show runChannels c false (ChanEvent.dispatch :: es)
            = (true, c.cancelRxId) :: runChannels (dispatchCancelSetup c).1 true es from rfl] at h
        cases A with
        | nil =>
          rw [List.nil_append] at h
          injection h with h1 h2
          injection h1 with _ hx
          have hr := (runChannels_dispatch_lb es (dispatchCancelSetup c).1 true
            (chanInv_dispatch c hinv) B r C h2).1 rfl
          have hd : (dispatchCancelSetup c).1.nextId = c.nextId + 1 := rfl
          have hlt : c.cancelRxId < c.nextId := hinv.2.1
          omega
        | cons a A2 =>
          rw [List.cons_append] at h
          injection h with h1 h2
          exact ih (dispatchCancelSetup c).1 true (chanInv_dispatch c hinv) A2 b x B r C h2
    | complete =>
      cases active with
      | true =>
        rw [show runChannels c true (ChanEvent.complete :: es)
            = runChannels (Channels.resetCancelChannel c) false es from rfl] at h
        exact ih (Channels.resetCancelChannel c) false (chanInv_reset c hinv) A b x B r C h
      | false =>
        rw [show runChannels c false (ChanEvent.complete :: es) = runChannels c false es from rfl] at h
        exact ih c false hinv A b x B r C h
    | cancelSend =>
      cases active with
      | true =>
        rw [show runChannels c true (ChanEvent.cancelSend :: es)
            = (false, c.currentCancelTxId) :: runChannels c true es from rfl] at h
        cases A with
        | nil =>
          rw [List.nil_append] at h
          injection h with h1 h2
          injection h1 with _ hx
          have hr := (runChannels_dispatch_lb es c true hinv B r C h2).1 rfl
          have hlt : c.currentCancelTxId < c.nextId := hinv.2.2
          omega
        | cons a A2 =>
          rw [List.cons_append] at h
          injection h with h1 h2
          exact ih c true hinv A2 b x B r C h2
      | false =>
        rw [show runChannels c false (ChanEvent.cancelSend :: es) = runChannels c false es from rfl] at h
        exact ih c false hinv A b x B r C h

/-- **C2** A cancellation sent while operation N is in flight (or left
pending after N completes) is never delivered to a later operation: in any
run of the dispatch loop from a fresh channel state, the sender generation
of an earlier cancellation differs from the receiver generation handed to
any later dispatched operation; likewise the receivers of two distinct
dispatches always differ (a fresh pair per operation). -/
theorem cancelSend_never_reaches_later_dispatch
    (es : List ChanEvent) (A B C : List (Bool × Nat)) (tx rx : Nat) :
    (runChannels Channels.new false es = A ++ (false, tx) :: B ++ (true, rx) :: C →
      tx ≠ rx) ∧
    (runChannels Channels.new false es = A ++ (true, tx) :: B ++ (true, rx) :: C →
      tx ≠ rx) := by
  constructor
  · intro h
    exact Nat.ne_of_lt (runChannels_earlier_lt es Channels.new false chanInv_new A false tx B rx C h)
  · intro h
    exact Nat.ne_of_lt (runChannels_earlier_lt es Channels.new false chanInv_new A true tx B rx C h)

/-- Witness for C2: dispatch, cancel during flight, completion, then a
second dispatch; the cancel's sender generation 0 differs from the second
operation's receiver generation 2. -/
theorem cancelSend_never_reaches_later_dispatch_witness :
    runChannels Channels.new false
        [ChanEvent.dispatch, ChanEvent.cancelSend, ChanEvent.complete, ChanEvent.dispatch]
      = [(true, 0), (false, 0), (true, 2)] ∧ (0 : Nat) ≠ 2 :=
  ⟨rfl,
    (cancelSend_never_reaches_later_dispatch
      [ChanEvent.dispatch, ChanEvent.cancelSend, ChanEvent.complete, ChanEvent.dispatch]
      [(true, 0)] [] [] 0 2).1 rfl⟩

/-- **C5** Merging a source settings document binding a hooks event to an
array of entries into a destination that already binds the same event to an
array appends the source entries (skipping, by full JSON equality, entries
already present) instead of replacing the array: the destination array is a
prefix of the result, every appended element is a source entry that was not
already present, every source entry occurs in the result, and all other
keys of the destination are untouched. -/
theorem mergeJsonValues_hooks_appends
    (dm dh : List (String × Json)) (e : String) (ds ss : List Json)
    (hdm : getKey dm "hooks" = some (Json.obj dh))
    (hdh : getKey dh e = some (Json.arr ds)) :
    ∃ t,
      mergeJsonValues (Json.obj dm) (Json.obj [("hooks", Json.obj [(e, Json.arr ss)])])
        = Json.obj (setKeyVal dm "hooks"
            (Json.obj (setKeyVal dh e (Json.arr (ds ++ t))))) ∧
      (∀ x ∈ t, x ∈ ss ∧ ds.contains x = false) ∧
      (∀ x ∈ ss, (ds ++ t).contains x = true) ∧
      (∀ k, k ≠ "hooks" →
        getKey (setKeyVal dm "hooks" (Json.obj (setKeyVal dh e (Json.arr (ds ++ t))))) k
          = getKey dm k) ∧
      (∀ e', e' ≠ e → getKey (setKeyVal dh e (Json.arr (ds ++ t))) e' = getKey dh e') := by
  obtain ⟨t, h1, h2⟩ := hookAppendLoop_split ss ds
  refine ⟨t, ?_, h2, ?_, ?_, ?_⟩
  · have hmh : mergeHooks (Json.obj dh) (Json.obj [(e, Json.arr ss)])
        = Json.obj (setKeyVal dh e (Json.arr (ds ++ t))) := by
      simp only [mergeHooks, mergeHooksFields, hdh, h1]
    simp [mergeJsonValues, mergeFields, hdm, hmh]
  · intro x hx
    have := hookAppendLoop_contains_of_mem ss ds x hx
    rwa [h1] at this
  · intro k hk
    exact getKey_setKeyVal_ne _ _ _ _ hk
  · intro e' he'
    exact getKey_setKeyVal_ne _ _ _ _ he'

/-- Witness for C5 at the spec's concrete instance: a source hook entry
with command `"A"` merged into a destination already holding the same
event with command `"B"`. -/
theorem mergeJsonValues_hooks_appends_witness :
    getKey [("hooks",
        Json.obj [("UserPromptSubmit",
          Json.arr [Json.obj [("hooks",
            Json.arr [Json.obj [("type", Json.str "command"), ("command", Json.str "B")]])]])])]
      "hooks" = some (Json.obj [("UserPromptSubmit",
          Json.arr [Json.obj [("hooks",
            Json.arr [Json.obj [("type", Json.str "command"), ("command", Json.str "B")]])]])]) ∧
    ∃ t,
      mergeJsonValues
        (Json.obj [("hooks",
          Json.obj [("UserPromptSubmit",
            Json.arr [Json.obj [("hooks",
              Json.arr [Json.obj [("type", Json.str "command"), ("command", Json.str "B")]])]])])])
        (Json.obj [("hooks",
          Json.obj [("UserPromptSubmit",
            Json.arr [Json.obj [("hooks",
              Json.arr [Json.obj [("type", Json.str "command"), ("command", Json.str "A")]])]])])])
        = Json.obj (setKeyVal
            [("hooks",
              Json.obj [("UserPromptSubmit",
                Json.arr [Json.obj [("hooks",
                  Json.arr [Json.obj [("type", Json.str "command"), ("command", Json.str "B")]])]])])]
            "hooks"
            (Json.obj (setKeyVal
              [("UserPromptSubmit",
                Json.arr [Json.obj [("hooks",
                  Json.arr [Json.obj [("type", Json.str "command"), ("command", Json.str "B")]])]])]
              "UserPromptSubmit"
              (Json.arr ([Json.obj [("hooks",
                  Json.arr [Json.obj [("type", Json.str "command"), ("command", Json.str "B")]])]] ++ t))))) ∧
      (∀ x ∈ t, x ∈ [Json.obj [("hooks",
          Json.arr [Json.obj [("type", Json.str "command"), ("command", Json.str "A")]])]] ∧
        ([Json.obj [("hooks",
          Json.arr [Json.obj [("type", Json.str "command"), ("command", Json.str "B")]])]].contains x) = false) ∧
      (∀ x ∈ [Json.obj [("hooks",
          Json.arr [Json.obj [("type", Json.str "command"), ("command", Json.str "A")]])]],
        (([Json.obj [("hooks",
            Json.arr [Json.obj [("type", Json.str "command"), ("command", Json.str "B")]])]] ++ t).contains x) = true) ∧
      (∀ k, k ≠ "hooks" →
        getKey (setKeyVal
            [("hooks",
              Json.obj [("UserPromptSubmit",
                Json.arr [Json.obj [("hooks",
                  Json.arr [Json.obj [("type", Json.str "command"), ("command", Json.str "B")]])]])])]
            "hooks"
            (Json.obj (setKeyVal
              [("UserPromptSubmit",
                Json.arr [Json.obj [("hooks",
                  Json.arr [Json.obj [("type", Json.str "command"), ("command", Json.str "B")]])]])]
              "UserPromptSubmit"
              (Json.arr ([Json.obj [("hooks",
                  Json.arr [Json.obj [("type", Json.str "command"), ("command", Json.str "B")]])]] ++ t))))) k
          = getKey [("hooks",
              Json.obj [("UserPromptSubmit",
                Json.arr [Json.obj [("hooks",
                  Json.arr [Json.obj [("type", Json.str "command"), ("command", Json.str "B")]])]])])] k) ∧
      (∀ e', e' ≠ "UserPromptSubmit" →
        getKey (setKeyVal
            [("UserPromptSubmit",
              Json.arr [Json.obj [("hooks",
                Json.arr [Json.obj [("type", Json.str "command"), ("command", Json.str "B")]])]])]
            "UserPromptSubmit"
            (Json.arr ([Json.obj [("hooks",
                Json.arr [Json.obj [("type", Json.str "command"), ("command", Json.str "B")]])]] ++ t))) e'
          = getKey [("UserPromptSubmit",
              Json.arr [Json.obj [("hooks",
                Json.arr [Json.obj [("type", Json.str "command"), ("command", Json.str "B")]])]])] e') :=
  ⟨rfl,
    mergeJsonValues_hooks_appends
      [("hooks",
        Json.obj [("UserPromptSubmit",
          Json.arr [Json.obj [("hooks",
            Json.arr [Json.obj [("type", Json.str "command"), ("command", Json.str "B")]])]])])]
      [("UserPromptSubmit",
        Json.arr [Json.obj [("hooks",
          Json.arr [Json.obj [("type", Json.str "command"), ("command", Json.str "B")]])]])]
      "UserPromptSubmit"
      [Json.obj [("hooks",
        Json.arr [Json.obj [("type", Json.str "command"), ("command", Json.str "B")]])]]
      [Json.obj [("hooks",
        Json.arr [Json.obj [("type", Json.str "command"), ("command", Json.str "A")]])]]
      rfl rfl⟩

/-- **C3 (counterexample)** Accepting a cancellation (Esc with an operation
in flight and the latch clear) does not clear the pending queue at
acceptance time: the keypress handler records the acceptance (sends the
signal, logs the notice, sets the latch) but leaves `processing_queue`
untouched. -/
theorem handleInstallingInput_accepts_without_clearing_queue :
    (handleInstallingInput
      (App.mk Tab.rules View.installing [] [] [] none (some 0) (some 3)
        ["Starting installation of 3 items..."] [1, 2] false 0 false false false false
        none [] 0 "" [])
      Key.esc true).2 = true ∧
    (handleInstallingInput
      (App.mk Tab.rules View.installing [] [] [] none (some 0) (some 3)
        ["Starting installation of 3 items..."] [1, 2] false 0 false false false false
        none [] 0 "" [])
      Key.esc true).1.cancelling = true ∧
    (handleInstallingInput
      (App.mk Tab.rules View.installing [] [] [] none (some 0) (some 3)
        ["Starting installation of 3 items..."] [1, 2] false 0 false false false false
        none [] 0 "" [])
      Key.esc true).1.processingQueue = [1, 2] := by
  refine ⟨rfl, rfl, rfl⟩

/-- **C3 (amended)** A user cancellation is accepted at most once per
in-flight operation — the `cancelling` latch makes a second keypress a
no-op — and the in-progress notice is logged at acceptance; the queue of
pending indices is cleared when the cancelled operation's completion
result (an error containing `Cancelled by user`) is handled, which marks
the operation inactive, and in the tick that handles such a completion no
further item is dispatched. -/
theorem cancellation_latch_and_deferred_clear
    (app : App) (k : Key) (e : String) (input : StepInput)
    (hcancel : strContains e "Cancelled by user" = true)
    (hrecv : input.processRecv = ProcessRecv.ok (Except.error e)) :
    (app.cancelling = false →
      handleInstallingInput app Key.esc true
        = ({ app with
              processingLog := app.processingLog ++ ["[WARN] Cancelling current operation..."],
              cancelling := true }, true)) ∧
    (app.cancelling = true → app.processingComplete = false →
      handleInstallingInput app k true = (app, false)) ∧
    ((handleProcessCompletion app (ProcessRecv.ok (Except.error e))).1.processingQueue = [] ∧
      (handleProcessCompletion app (ProcessRecv.ok (Except.error e))).2 = false) ∧
    (handleInstallingView app true input).dispatched = false := by
  have hq : ∀ a : App,
      (handleProcessCompletion a (ProcessRecv.ok (Except.error e))).1.processingQueue = [] ∧
      (handleProcessCompletion a (ProcessRecv.ok (Except.error e))).2 = false := by
    intro a
    by_cases hir : a.isRemoving <;>
      simp [handleProcessCompletion, hcancel, hir, App.startFinishProcessing]
  refine ⟨?_, ?_, hq app, ?_⟩
  · intro hc
    simp [handleInstallingInput, hc]
  · intro hc hpc
    cases k <;> simp [handleInstallingInput, hc, hpc]
  · obtain ⟨hq1, hq2⟩ := hq
      ((match input.key with
        | some k => handleInstallingInput app k true
        | none => (app, false)).1.tick)
    simp only [handleInstallingView, hrecv, if_pos, hq1, hq2]
    simp only [List.isEmpty_nil, Bool.not_true, Bool.false_and, Bool.and_false,
      Bool.false_eq_true, if_false]
    split
    · rfl
    · split <;> rfl

/-- Witness for the amended C3 at a concrete in-flight state and tick. -/
theorem cancellation_latch_and_deferred_clear_witness :
    strContains "Cancelled by user" "Cancelled by user" = true ∧
    ((App.mk Tab.rules View.installing [] [] [] none (some 0) (some 3)
        ["[WARN] Cancelling current operation..."] [1, 2] false 0 false false false true
        none [] 0 "" []).cancelling = true →
      (App.mk Tab.rules View.installing [] [] [] none (some 0) (some 3)
        ["[WARN] Cancelling current operation..."] [1, 2] false 0 false false false true
        none [] 0 "" []).processingComplete = false →
      handleInstallingInput
        (App.mk Tab.rules View.installing [] [] [] none (some 0) (some 3)
          ["[WARN] Cancelling current operation..."] [1, 2] false 0 false false false true
          none [] 0 "" [])
        Key.esc true
        = (App.mk Tab.rules View.installing [] [] [] none (some 0) (some 3)
            ["[WARN] Cancelling current operation..."] [1, 2] false 0 false false false true
            none [] 0 "" [], false)) ∧
    (handleProcessCompletion
        (App.mk Tab.rules View.installing [] [] [] none (some 0) (some 3)
          ["[WARN] Cancelling current operation..."] [1, 2] false 0 false false false true
          none [] 0 "" [])
        (ProcessRecv.ok (Except.error "Cancelled by user"))).1.processingQueue = [] ∧
    (handleInstallingView
        (App.mk Tab.rules View.installing [] [] [] none (some 0) (some 3)
          ["[WARN] Cancelling current operation..."] [1, 2] false 0 false false false true
          none [] 0 "" [])
        true
        (StepInput.mk none (ProcessRecv.ok (Except.error "Cancelled by user"))
          RefreshRecv.empty)).dispatched = false :=
  by
    have h := cancellation_latch_and_deferred_clear
      (App.mk Tab.rules View.installing [] [] [] none (some 0) (some 3)
        ["[WARN] Cancelling current operation..."] [1, 2] false 0 false false false true
        none [] 0 "" [])
      Key.esc "Cancelled by user"
      (StepInput.mk none (ProcessRecv.ok (Except.error "Cancelled by user")) RefreshRecv.empty)
      (by rfl) rfl
    exact ⟨by rfl, h.2.1, h.2.2.1.1, h.2.2.2⟩

/-- **C4** When the execution thread disconnects the completion channel
without a result, the dispatcher records a terminal failure in the log and
continues: the in-flight flag is cleared, a non-empty queue has its next
item dispatched in the same tick, and an empty queue starts the finish
step (and its refresh) instead; the loop never waits for the missing
result. -/
theorem threadFault_recovered
    (app : App) (input : StepInput)
    (hkey : input.key = none)
    (hrecv : input.processRecv = ProcessRecv.disconnected)
    (href : app.refreshing = false) :
    "[ERR] Process thread crashed" ∈ (handleInstallingView app true input).app.processingLog ∧
    (app.processingQueue ≠ [] →
      (handleInstallingView app true input).dispatched = true ∧
      (handleInstallingView app true input).processingActive = true ∧
      (handleInstallingView app true input).app.processingQueue = app.processingQueue.tail) ∧
    (app.processingQueue = [] →
      (handleInstallingView app true input).processingActive = false ∧
      (handleInstallingView app true input).app.needsRefresh = true ∧
      (handleInstallingView app true input).startedRefresh = true) := by
  by_cases hq : app.processingQueue = []
  · refine ⟨?_, fun hne => absurd hq hne, fun _ => ?_⟩ <;>
      simp [handleInstallingView, hkey, hrecv, handleProcessCompletion, App.tick,
        App.startFinishProcessing, dispatchNextProcess, hq, href]
  · refine ⟨?_, fun _ => ?_, fun he => absurd he hq⟩ <;>
      simp [handleInstallingView, hkey, hrecv, handleProcessCompletion, App.tick,
        App.startFinishProcessing, dispatchNextProcess, hq, href]

/-- Witness for C4: a crashed thread with one queued item dispatches the
next item; with an empty queue it starts the finish step. -/
theorem threadFault_recovered_witness :
    "[ERR] Process thread crashed" ∈
      (handleInstallingView
        (App.mk Tab.rules View.installing
          [Component.mk ComponentType.rules "a.md" true InstallStatus.new]
          [] [] none (some 0) (some 2) [] [0] false 0 false false false false
          none [] 0 "" [])
        true (StepInput.mk none ProcessRecv.disconnected RefreshRecv.empty)).app.processingLog ∧
    (handleInstallingView
        (App.mk Tab.rules View.installing
          [Component.mk ComponentType.rules "a.md" true InstallStatus.new]
          [] [] none (some 0) (some 2) [] [0] false 0 false false false false
          none [] 0 "" [])
        true (StepInput.mk none ProcessRecv.disconnected RefreshRecv.empty)).dispatched = true ∧
    (handleInstallingView
        (App.mk Tab.rules View.installing
          [Component.mk ComponentType.rules "a.md" true InstallStatus.new]
          [] [] none (some 0) (some 2) [] [0] false 0 false false false false
          none [] 0 "" [])
        true (StepInput.mk none ProcessRecv.disconnected RefreshRecv.empty)).app.processingQueue
      = [] :=
  by
    have h := threadFault_recovered
      (App.mk Tab.rules View.installing
        [Component.mk ComponentType.rules "a.md" true InstallStatus.new]
        [] [] none (some 0) (some 2) [] [0] false 0 false false false false
        none [] 0 "" [])
      (StepInput.mk none ProcessRecv.disconnected RefreshRecv.empty)
      rfl rfl rfl
    refine ⟨h.1, (h.2.1 (by simp)).1, ?_⟩
    rw [(h.2.1 (by simp)).2.2]
    rfl

theorem setSelectedAt_get (comps : List Component) (i : Nat) (v : Bool) (j : Nat) :
    (setSelectedAt comps i v).get? j =
      if j = i then (comps.get? j).map (fun c => { c with selected := v })
      else comps.get? j := by
  unfold setSelectedAt
  cases hg : comps.get? i with
  | none =>
    by_cases hj : j = i
    · rw [if_pos hj, hj, hg]
      rfl
    · rw [if_neg hj]
  | some c =>
    by_cases hj : j = i
    · subst hj
      rw [if_pos rfl, List.get?_set_eq, hg]
      rfl
    · rw [if_neg hj, List.get?_set_ne _ _ (Ne.symm hj)]

theorem foldSetSelected_get (indices : List Nat) (v : Bool) :
    ∀ (comps : List Component) (j : Nat),
      (indices.foldl (fun cs i => setSelectedAt cs i v) comps).get? j
        = if j ∈ indices then (comps.get? j).map (fun c => { c with selected := v })
          else comps.get? j := by
  induction indices with
  | nil => intro comps j; simp
  | cons i rest ih =>
    intro comps j
    rw [List.foldl_cons, ih]
    by_cases hj : j ∈ rest
    · rw [if_pos hj, if_pos (List.mem_cons_of_mem _ hj), setSelectedAt_get]
      by_cases hji : j = i
      · rw [if_pos hji]
        cases comps.get? j <;> rfl
      · rw [if_neg hji]
    · rw [if_neg hj]
      by_cases hji : j = i
      · have hm : j ∈ i :: rest := by simp [hji]
        rw [if_pos hm, setSelectedAt_get, if_pos hji]
      · have hm : j ∉ i :: rest := by simp [hji, hj]
        rw [if_neg hm, setSelectedAt_get, if_neg hji]

/-- **C6** Toggling selection on a folder whose collected leaf components
are all deselected selects every one of them (leaving components outside
the subtree untouched), and toggling the same folder again deselects all
of them, restoring every selection flag: the toggle is all-or-nothing over
the subtree. -/
theorem toggleFolderSelection_pair
    (tree : TreeView) (comps : List Component) (nodeIdx : Nat)
    (hcur : tree.currentNodeIdx = some nodeIdx)
    (hne : tree.getFolderComponentIndices nodeIdx ≠ [])
    (hdesel : ∀ i ∈ tree.getFolderComponentIndices nodeIdx,
      (comps.get? i).map Component.selected = some false) :
    (∀ i ∈ tree.getFolderComponentIndices nodeIdx,
      ((toggleFolderSelection tree comps).get? i).map Component.selected = some true) ∧
    (∀ j, j ∉ tree.getFolderComponentIndices nodeIdx →
      (toggleFolderSelection tree comps).get? j = comps.get? j) ∧
    (∀ i ∈ tree.getFolderComponentIndices nodeIdx,
      ((toggleFolderSelection tree (toggleFolderSelection tree comps)).get? i).map
        Component.selected = some false) ∧
    (∀ j, j ∉ tree.getFolderComponentIndices nodeIdx →
      (toggleFolderSelection tree (toggleFolderSelection tree comps)).get? j
        = comps.get? j) ∧
    (∀ i ∈ tree.getFolderComponentIndices nodeIdx,
      (toggleFolderSelection tree (toggleFolderSelection tree comps)).get? i
        = comps.get? i) := by
  have hsome : ∀ i ∈ tree.getFolderComponentIndices nodeIdx,
      ∃ c, comps.get? i = some c ∧ c.selected = false := by
    intro i hi
    have h := hdesel i hi
    cases hg : comps.get? i with
    | none => rw [hg] at h; cases h
    | some c =>
      rw [hg] at h
      exact ⟨c, rfl, by simpa using h⟩
  have hall : (tree.getFolderComponentIndices nodeIdx).all
      (fun idx => ((comps.get? idx).map (fun c => c.selected)).getD false) = false := by
    obtain ⟨x, hx⟩ := List.exists_mem_of_ne_nil _ hne
    obtain ⟨c, hg, hc⟩ := hsome x hx
    cases hres : (tree.getFolderComponentIndices nodeIdx).all
        (fun idx => ((comps.get? idx).map (fun c => c.selected)).getD false) with
    | false => rfl
    | true =>
      have := (List.all_eq_true.mp hres) x hx
      rw [hg] at this
      simp [hc] at this
  have hstep1 : toggleFolderSelection tree comps
      = (tree.getFolderComponentIndices nodeIdx).foldl
          (fun cs i => setSelectedAt cs i true) comps := by
    unfold toggleFolderSelection
    rw [hcur]
    simp only [hne, if_neg, hall]
    simp [hne, hall]
  have hget1 : ∀ j, (toggleFolderSelection tree comps).get? j
      = if j ∈ tree.getFolderComponentIndices nodeIdx then
          (comps.get? j).map (fun c => { c with selected := true })
        else comps.get? j := by
    intro j
    rw [hstep1, foldSetSelected_get]
  have hsel1 : ∀ i ∈ tree.getFolderComponentIndices nodeIdx,
      ((toggleFolderSelection tree comps).get? i).map Component.selected = some true := by
    intro i hi
    obtain ⟨c, hg, _⟩ := hsome i hi
    rw [hget1 i, if_pos hi, hg]
    rfl
  have hall2 : (tree.getFolderComponentIndices nodeIdx).all
      (fun idx => (((toggleFolderSelection tree comps).get? idx).map
        (fun c => c.selected)).getD false) = true := by
    rw [List.all_eq_true]
    intro x hx
    obtain ⟨c, hg, _⟩ := hsome x hx
    rw [hget1 x, if_pos hx, hg]
    rfl
  have hstep2 : toggleFolderSelection tree (toggleFolderSelection tree comps)
      = (tree.getFolderComponentIndices nodeIdx).foldl
          (fun cs i => setSelectedAt cs i false) (toggleFolderSelection tree comps) := by
    have hall2' := hall2
    generalize hX : toggleFolderSelection tree comps = X at hall2' ⊢
    unfold toggleFolderSelection
    rw [hcur]
    simp only [List.get?_eq_getElem?] at hall2'
    simp [hne, hall2']
  have hget2 : ∀ j, (toggleFolderSelection tree (toggleFolderSelection tree comps)).get? j
      = if j ∈ tree.getFolderComponentIndices nodeIdx then
          ((toggleFolderSelection tree comps).get? j).map (fun c => { c with selected := false })
        else (toggleFolderSelection tree comps).get? j := by
    intro j
    rw [hstep2, foldSetSelected_get]
  refine ⟨hsel1, ?_, ?_, ?_, ?_⟩
  · intro j hj
    rw [hget1 j, if_neg hj]
  · intro i hi
    obtain ⟨c, hg, _⟩ := hsome i hi
    rw [hget2 i, if_pos hi, hget1 i, if_pos hi, hg]
    rfl
  · intro j hj
    rw [hget2 j, if_neg hj, hget1 j, if_neg hj]
  · intro i hi
    obtain ⟨c, hg, hc⟩ := hsome i hi
    obtain ⟨ct, nm, sel, st⟩ := c
    rw [hget2 i, if_pos hi, hget1 i, if_pos hi, hg]
    have hsel : sel = false := hc
    subst hsel
    rfl

/-- Witness for C6: a folder with two deselected leaves; both become
selected, and a second toggle deselects both, restoring the original
component list entrywise. -/
theorem toggleFolderSelection_pair_witness :
    (TreeView.mk
        [TreeNode.folder "f" "f" true [1, 2] 0 none,
         TreeNode.file 0 1 (some 0), TreeNode.file 1 1 (some 0)]
        [0, 1, 2] 0 [0]).currentNodeIdx = some 0 ∧
    (TreeView.mk
        [TreeNode.folder "f" "f" true [1, 2] 0 none,
         TreeNode.file 0 1 (some 0), TreeNode.file 1 1 (some 0)]
        [0, 1, 2] 0 [0]).getFolderComponentIndices 0 ≠ [] ∧
    (∀ i ∈ (TreeView.mk
        [TreeNode.folder "f" "f" true [1, 2] 0 none,
         TreeNode.file 0 1 (some 0), TreeNode.file 1 1 (some 0)]
        [0, 1, 2] 0 [0]).getFolderComponentIndices 0,
      (((toggleFolderSelection
          (TreeView.mk
            [TreeNode.folder "f" "f" true [1, 2] 0 none,
             TreeNode.file 0 1 (some 0), TreeNode.file 1 1 (some 0)]
            [0, 1, 2] 0 [0])
          [Component.mk ComponentType.rules "f/a.md" false InstallStatus.new,
           Component.mk ComponentType.rules "f/b.md" false InstallStatus.new]).get? i).map
        Component.selected) = some true) ∧
    (∀ i ∈ (TreeView.mk
        [TreeNode.folder "f" "f" true [1, 2] 0 none,
         TreeNode.file 0 1 (some 0), TreeNode.file 1 1 (some 0)]
        [0, 1, 2] 0 [0]).getFolderComponentIndices 0,
      (toggleFolderSelection
        (TreeView.mk
          [TreeNode.folder "f" "f" true [1, 2] 0 none,
           TreeNode.file 0 1 (some 0), TreeNode.file 1 1 (some 0)]
          [0, 1, 2] 0 [0])
        (toggleFolderSelection
          (TreeView.mk
            [TreeNode.folder "f" "f" true [1, 2] 0 none,
             TreeNode.file 0 1 (some 0), TreeNode.file 1 1 (some 0)]
            [0, 1, 2] 0 [0])
          [Component.mk ComponentType.rules "f/a.md" false InstallStatus.new,
           Component.mk ComponentType.rules "f/b.md" false InstallStatus.new])).get? i
        = ([Component.mk ComponentType.rules "f/a.md" false InstallStatus.new,
            Component.mk ComponentType.rules "f/b.md" false InstallStatus.new] :
            List Component).get? i) :=
  by
    have h := toggleFolderSelection_pair
      (TreeView.mk
        [TreeNode.folder "f" "f" true [1, 2] 0 none,
         TreeNode.file 0 1 (some 0), TreeNode.file 1 1 (some 0)]
        [0, 1, 2] 0 [0])
      [Component.mk ComponentType.rules "f/a.md" false InstallStatus.new,
       Component.mk ComponentType.rules "f/b.md" false InstallStatus.new]
      0 rfl (by decide) (by decide)
    exact ⟨rfl, by decide, h.1, h.2.2.2.2⟩

/-- **C8** An MCP server definition whose command contains `;` or any other
disallowed shell metacharacter fails validation, and the scanner's
`filter_map` drops it, so it never appears in the server list from which
queue entries are drawn. -/
theorem invalidCommand_rejected_and_excluded
    (catalog : List McpServerDef) (installed : List String)
    (d : McpServerDef) (c : String)
    (hc : d.command = some c)
    (hm : ∃ ch ∈ shellMetaChars, ch ∈ c.toList) :
    (validateMcpServer d).isSome = true ∧
    ∀ s ∈ scanMcpServers catalog installed, s.def_ ≠ d := by
  have hany : (c.toList.any fun ch => shellMetaChars.contains ch) = true := by
    rw [List.any_eq_true]
    obtain ⟨ch, hch1, hch2⟩ := hm
    exact ⟨ch, hch2, by simpa using hch1⟩
  have hsafe : isSafeCommand c = false := by
    unfold isSafeCommand
    rw [hany]
    simp
  have hval : (validateMcpServer d).isSome = true := by
    unfold validateMcpServer
    rw [hc]
    by_cases hid : isSafeIdentifier d.name
    · cases hurl : d.url with
      | some u =>
        by_cases hu : isHttpsUrl u <;> simp [hid, hu, hsafe]
      | none => simp [hid, hsafe]
    · simp [hid]
  refine ⟨hval, fun s hs hd => ?_⟩
  unfold scanMcpServers at hs
  rw [List.mem_filterMap] at hs
  obtain ⟨a, _, hf⟩ := hs
  by_cases hia : (validateMcpServer a).isSome
  · simp [hia] at hf
  · simp only [hia, Bool.false_eq_true, if_false, Option.some.injEq] at hf
    · have hsa : s.def_ = a := by
        rw [← hf]
        rfl
      rw [hsa] at hd
      rw [hd] at hia
      exact hia hval

/-- Witness for C8: the definition with command `"cmd; rm -rf /"` is
rejected and excluded from the scan of a catalog containing it. -/
theorem invalidCommand_rejected_and_excluded_witness :
    (McpServerDef.mk "bad" "d" none (some "cmd; rm -rf /") none "cat" []).command
        = some "cmd; rm -rf /" ∧
    (validateMcpServer (McpServerDef.mk "bad" "d" none (some "cmd; rm -rf /") none "cat" [])).isSome = true ∧
    ∀ s ∈ scanMcpServers [McpServerDef.mk "bad" "d" none (some "cmd; rm -rf /") none "cat" []] [],
      s.def_ ≠ McpServerDef.mk "bad" "d" none (some "cmd; rm -rf /") none "cat" [] :=
  ⟨rfl,
    invalidCommand_rejected_and_excluded
      [McpServerDef.mk "bad" "d" none (some "cmd; rm -rf /") none "cat" []] []
      (McpServerDef.mk "bad" "d" none (some "cmd; rm -rf /") none "cat" [])
      "cmd; rm -rf /" rfl ⟨';', by decide, by decide⟩⟩

/-- **C9** Removing the managed settings sections deletes exactly the
top-level keys `hooks`, `outputStyle` and `statusLine`, leaves every other
top-level key bound to its old value, and is a no-op when the settings
file does not exist. -/
theorem removeManagedSettingsSections_spec
    (m : List (String × Json)) (k : String) (hk : k ∉ managedKeys) :
    removeManagedSettingsSections none = none ∧
    ∃ m', removeManagedSettingsSections (some (Json.obj m)) = some (Json.obj m') ∧
      getKey m' "hooks" = none ∧ getKey m' "outputStyle" = none ∧
      getKey m' "statusLine" = none ∧ getKey m' k = getKey m k := by
  have hks : k ≠ "hooks" ∧ k ≠ "outputStyle" ∧ k ≠ "statusLine" := by
    simp [managedKeys] at hk
    exact hk
  refine ⟨rfl, removeKey (removeKey (removeKey m "hooks") "outputStyle") "statusLine",
    rfl, ?_, ?_, ?_, ?_⟩
  · rw [getKey_removeKey_ne _ _ _ (by decide), getKey_removeKey_ne _ _ _ (by decide)]
    exact getKey_removeKey_self _ _
  · rw [getKey_removeKey_ne _ _ _ (by decide)]
    exact getKey_removeKey_self _ _
  · exact getKey_removeKey_self _ _
  · rw [getKey_removeKey_ne _ _ _ hks.2.2, getKey_removeKey_ne _ _ _ hks.2.1,
      getKey_removeKey_ne _ _ _ hks.1]

/-- Witness for C9 at a concrete document holding a user key `env` next to
the managed keys. -/
theorem removeManagedSettingsSections_spec_witness :
    "env" ∉ managedKeys ∧
    (removeManagedSettingsSections none = none ∧
      ∃ m', removeManagedSettingsSections
          (some (Json.obj [("env", Json.str "x"), ("hooks", Json.obj []), ("statusLine", Json.null)]))
          = some (Json.obj m') ∧
        getKey m' "hooks" = none ∧ getKey m' "outputStyle" = none ∧
        getKey m' "statusLine" = none ∧
        getKey m' "env" = getKey [("env", Json.str "x"), ("hooks", Json.obj []), ("statusLine", Json.null)] "env") :=
  ⟨by decide,
    removeManagedSettingsSections_spec
      [("env", Json.str "x"), ("hooks", Json.obj []), ("statusLine", Json.null)]
      "env" (by decide)⟩

/-- **C10** Invoking install or remove with zero items selected on the
active tab leaves the application in its current view with queue, counters
and log untouched: the only state change is the status message
`"No items selected"`. -/
theorem installRemove_noSelection
    (app : App) (envPresent : List String)
    (h1 : app.tab = Tab.mcpServers → ∀ m ∈ app.mcpServers, m.selected = false)
    (h2 : app.tab = Tab.plugins → ∀ p ∈ app.plugins, p.selected = false)
    (h3 : ∀ ct, app.tab.toComponentType = some ct →
      ∀ c ∈ app.components, c.componentType = ct → c.selected = false) :
    app.installSelected envPresent = { app with statusMessage := some "No items selected" } ∧
    app.removeSelected = { app with statusMessage := some "No items selected" } := by
  have hind : (if app.tab = Tab.mcpServers then
      selectedIndices app.mcpServers (fun m => m.selected)
    else if app.tab = Tab.plugins then
      selectedIndices app.plugins (fun p => p.selected)
    else
      match app.tab.toComponentType with
      | some compType =>
        selectedIndices app.components (fun c => c.selected && c.componentType = compType)
      | none => []) = [] := by
    by_cases ht : app.tab = Tab.mcpServers
    · rw [if_pos ht]
      exact selectedIndices_eq_nil _ _ (h1 ht)
    · rw [if_neg ht]
      by_cases ht2 : app.tab = Tab.plugins
      · rw [if_pos ht2]
        exact selectedIndices_eq_nil _ _ (h2 ht2)
      · rw [if_neg ht2]
        cases hct : app.tab.toComponentType with
        | none => rfl
        | some ct =>
          refine selectedIndices_eq_nil _ _ (fun c hc => ?_)
          by_cases hcc : c.componentType = ct
          · simp [hcc, h3 ct hct c hc hcc]
          · simp [hcc]
  constructor
  · unfold App.installSelected
    rw [hind]
    rfl
  · unfold App.removeSelected
    rw [hind]
    rfl

/-- Witness for C10: a list-view state with one deselected component on the
Rules tab. -/
theorem installRemove_noSelection_witness :
    App.installSelected
      (App.mk Tab.rules View.list
        [Component.mk ComponentType.rules "perf.md" false InstallStatus.new]
        [] [] none none none [] [] false 0 false false false false none [] 0 "" []) []
      = { App.mk Tab.rules View.list
            [Component.mk ComponentType.rules "perf.md" false InstallStatus.new]
            [] [] none none none [] [] false 0 false false false false none [] 0 "" []
          with statusMessage := some "No items selected" } ∧
    App.removeSelected
      (App.mk Tab.rules View.list
        [Component.mk ComponentType.rules "perf.md" false InstallStatus.new]
        [] [] none none none [] [] false 0 false false false false none [] 0 "" [])
      = { App.mk Tab.rules View.list
            [Component.mk ComponentType.rules "perf.md" false InstallStatus.new]
            [] [] none none none [] [] false 0 false false false false none [] 0 "" []
          with statusMessage := some "No items selected" } :=
  installRemove_noSelection
    (App.mk Tab.rules View.list
      [Component.mk ComponentType.rules "perf.md" false InstallStatus.new]
      [] [] none none none [] [] false 0 false false false false none [] 0 "" []) []
    (by decide) (by decide) (by decide)

end Installer
